import Mathlib

/-!
# Verification of the llm-council backend against its specification

Shallow embedding of the TypeScript backend (`backend-ts/src` and sibling
modules: `retry.ts`, `cache.ts`, `council.ts`, `http-client.ts`,
`openrouter.ts`, `sse stream`) in Lean 4, together with theorems settling
the specification claims C1–C10.

Modelling conventions:
* Timestamps (`Date.now()`) are `Nat` milliseconds passed explicitly.
  JavaScript subtraction `now - last` feeding a `> positive` comparison is
  modelled by truncated `Nat` subtraction, which agrees whenever
  `now ≥ last` (and both yield `false` otherwise).
* JavaScript objects used as string-keyed records (`Record<string, T>`)
  are modelled as insertion-ordered association lists: assignment to an
  existing key overwrites in place, assignment to a fresh key appends.
  `Object.entries` is the list itself.
* Asynchronous model calls are modelled by oracle functions
  `String → Option ModelResponse` giving each call's settled outcome
  (`null` = failure), one oracle per prompt-distinct call site.
* Strings are scanned as `List Char`; the regex fragments used by the
  source (`/\d+\.\s*Response [A-Z]/g`, `/Response [A-Z]/g`) are embedded
  as deterministic maximal-munch scanners, which agree with JavaScript's
  leftmost, non-overlapping global matching on these patterns because
  each sub-pattern's continuation starts with a character disjoint from
  the repeated class. `\s` is modelled on the ASCII whitespace characters.
-/

namespace Council

/-! ## Circuit breaker (retry.ts, class CircuitBreaker) -/

inductive CBState where
  | closed
  | opened
  | halfOpen
deriving DecidableEq

structure CircuitBreaker where
  failures : Nat
  lastFailureTime : Nat
  state : CBState
  failureThreshold : Nat
  resetTimeout : Nat
  halfOpenTimeout : Nat
deriving DecidableEq

/-- The breaker constructed by `new CircuitBreaker()` with constructor
defaults (threshold 5, resetTimeout 60000 ms, halfOpenTimeout 30000 ms). -/
def CircuitBreaker.default : CircuitBreaker :=
  { failures := 0
    lastFailureTime := 0
    state := .closed
    failureThreshold := 5
    resetTimeout := 60000
    halfOpenTimeout := 30000 }

/-- `CircuitBreaker.canExecute`, returning the boolean result and the
possibly transitioned breaker. -/
def canExecute (now : Nat) (cb : CircuitBreaker) : Bool × CircuitBreaker :=
  match cb.state with
  | .opened =>
      if now - cb.lastFailureTime > cb.resetTimeout then
        (true, { cb with state := .halfOpen })
      else
        (false, cb)
  | .halfOpen =>
      if now - cb.lastFailureTime > cb.halfOpenTimeout then
        (true, { cb with state := .closed, failures := 0 })
      else
        (true, cb)
  | .closed => (true, cb)

/-- `CircuitBreaker.recordSuccess`. `Math.max(0, failures - 1)` is `Nat`
truncated subtraction. -/
def recordSuccess (cb : CircuitBreaker) : CircuitBreaker :=
  match cb.state with
  | .halfOpen => { cb with state := .closed, failures := 0 }
  | .closed => { cb with failures := cb.failures - 1 }
  | .opened => cb

/-- `CircuitBreaker.recordFailure` at time `now` (the source binds
`f = this.failures + 1`; it is inlined here). -/
def recordFailure (now : Nat) (cb : CircuitBreaker) : CircuitBreaker :=
  if cb.failures + 1 ≥ cb.failureThreshold ∧ cb.state ≠ .opened then
    { cb with failures := cb.failures + 1, lastFailureTime := now, state := .opened }
  else
    { cb with failures := cb.failures + 1, lastFailureTime := now }

/-- `n` consecutive `recordFailure` calls, all at time `t`. -/
def recordFailureN (n : Nat) (t : Nat) (cb : CircuitBreaker) : CircuitBreaker :=
  match n with
  | 0 => cb
  | k + 1 => recordFailureN k t (recordFailure t cb)

theorem recordFailure_failures (t : Nat) (cb : CircuitBreaker) :
    (recordFailure t cb).failures = cb.failures + 1 := by
  unfold recordFailure
  split <;> rfl

theorem recordFailure_lastFailureTime (t : Nat) (cb : CircuitBreaker) :
    (recordFailure t cb).lastFailureTime = t := by
  unfold recordFailure
  split <;> rfl

theorem recordFailure_state_of_opened (t : Nat) (cb : CircuitBreaker)
    (h : cb.state = .opened) : (recordFailure t cb).state = .opened := by
  simp [recordFailure, h]

theorem recordFailureN_failures (n t : Nat) (cb : CircuitBreaker) :
    (recordFailureN n t cb).failures = cb.failures + n := by
  induction n generalizing cb with
  | zero => rfl
  | succ k ih =>
      rw [recordFailureN, ih, recordFailure_failures]
      omega

theorem recordFailureN_lastFailureTime (n t : Nat) (cb : CircuitBreaker)
    (h : cb.lastFailureTime = t) :
    (recordFailureN n t cb).lastFailureTime = t := by
  induction n generalizing cb with
  | zero => exact h
  | succ k ih =>
      rw [recordFailureN]
      exact ih _ (recordFailure_lastFailureTime t cb)

theorem recordFailureN_state_of_opened (n t : Nat) (cb : CircuitBreaker)
    (h : cb.state = .opened) : (recordFailureN n t cb).state = .opened := by
  induction n generalizing cb with
  | zero => exact h
  | succ k ih =>
      rw [recordFailureN]
      exact ih _ (recordFailure_state_of_opened t cb h)

theorem recordFailureN_state_of_closed (n t : Nat) (cb : CircuitBreaker)
    (hs : cb.state = .closed) (hn : 1 ≤ n)
    (hth : cb.failures + n ≥ cb.failureThreshold) :
    (recordFailureN n t cb).state = .opened := by
  induction n generalizing cb with
  | zero => omega
  | succ k ih =>
      rw [recordFailureN]
      by_cases hopen : cb.failures + 1 ≥ cb.failureThreshold
      · have h1 : (recordFailure t cb).state = .opened := by
          simp [recordFailure, hopen, hs]
        exact recordFailureN_state_of_opened k t _ h1
      · have h1 : (recordFailure t cb).state = .closed := by
          simp [recordFailure, hopen, hs]
        have hk1 : 1 ≤ k := by omega
        have hf : (recordFailure t cb).failures + k ≥ (recordFailure t cb).failureThreshold := by
          rw [recordFailure_failures]
          have : (recordFailure t cb).failureThreshold = cb.failureThreshold := by
            unfold recordFailure
            split <;> rfl
          rw [this]
          omega
        exact ih _ h1 hk1 hf

theorem recordFailureN_lastFailureTime_pos (n t : Nat) (cb : CircuitBreaker)
    (h : 1 ≤ n) : (recordFailureN n t cb).lastFailureTime = t := by
  match n, h with
  | k + 1, _ =>
      rw [recordFailureN]
      exact recordFailureN_lastFailureTime k t _ (recordFailure_lastFailureTime t cb)

/-- The breaker for a key after `failureThreshold` = 5 consecutive recorded
failures, all at time 0, starting from the freshly constructed breaker. -/
def cbOpenW : CircuitBreaker := recordFailureN 5 0 CircuitBreaker.default

/-- The breaker obtained from `cbOpenW` by the first `canExecute` made after
`resetTimeout` elapsed (the open → half-open transition). -/
def cbHalfW : CircuitBreaker := (canExecute 60001 cbOpenW).2

/-- C1, counterexample. After 5 consecutive failures at time 0 the breaker is
open and `canExecute` is false before `resetTimeout` elapses; the first
`canExecute` at time 60001 transitions to half-open and returns true — but the
claim's "exactly one trial call is permitted ... the breaker returns to closed
on that trial's success or back to open on its failure" is false: a second
`canExecute` at the same instant also returns true (a second trial is
permitted), and it moreover transitions the breaker back to closed with the
failure counter reset, although no trial success was ever recorded (because
`halfOpenTimeout` = 30 s ≤ `resetTimeout` = 60 s has already elapsed since the
last failure). -/
theorem C1_counterexample :
    cbOpenW.state = .opened ∧
    (canExecute 60000 cbOpenW).1 = false ∧
    (canExecute 60001 cbOpenW).1 = true ∧
    cbHalfW.state = .halfOpen ∧
    (canExecute 60001 cbHalfW).1 = true ∧
    (canExecute 60001 cbHalfW).2.state = .closed ∧
    (canExecute 60001 cbHalfW).2.failures = 0 := by
  decide

/-- C1 (amended): after `failureThreshold` consecutive recorded failures
starting from a closed breaker with a zero counter, the breaker is open and
`canExecute` returns false until strictly more than `resetTimeout` has elapsed
since the last failure; the first `canExecute` after that transitions to
half-open and returns true. In half-open, however, *every* `canExecute`
returns true (no single-trial limit is enforced), and a `canExecute` made more
than `halfOpenTimeout` after the last failure — at default settings, every
call made once the open → half-open transition has fired — moves the breaker
directly back to closed and resets the counter without any trial outcome.
`recordSuccess` in half-open closes the breaker and resets the counter;
`recordFailure` in half-open (where the counter still meets the threshold)
reopens it. -/
theorem C1_amended (cb : CircuitBreaker) (t now : Nat) :
    (cb.state = .closed → cb.failures = 0 → 1 ≤ cb.failureThreshold →
      (recordFailureN cb.failureThreshold t cb).state = .opened ∧
      (recordFailureN cb.failureThreshold t cb).lastFailureTime = t) ∧
    (cb.state = .opened → now - cb.lastFailureTime ≤ cb.resetTimeout →
      canExecute now cb = (false, cb)) ∧
    (cb.state = .opened → now - cb.lastFailureTime > cb.resetTimeout →
      (canExecute now cb).1 = true ∧ (canExecute now cb).2.state = .halfOpen) ∧
    (cb.state = .halfOpen → (canExecute now cb).1 = true) ∧
    (cb.state = .halfOpen → now - cb.lastFailureTime > cb.halfOpenTimeout →
      (canExecute now cb).2.state = .closed ∧ (canExecute now cb).2.failures = 0) ∧
    (cb.state = .halfOpen →
      (recordSuccess cb).state = .closed ∧ (recordSuccess cb).failures = 0) ∧
    (cb.state = .halfOpen → cb.failures + 1 ≥ cb.failureThreshold →
      (recordFailure t cb).state = .opened) := by
  refine ⟨?_, ?_, ?_, ?_, ?_, ?_, ?_⟩
  · intro hs hf hth
    refine ⟨?_, ?_⟩
    · exact recordFailureN_state_of_closed cb.failureThreshold t cb hs hth (by omega)
    · exact recordFailureN_lastFailureTime_pos cb.failureThreshold t cb hth
  · intro hs hle
    have : ¬ now - cb.lastFailureTime > cb.resetTimeout := by omega
    simp [canExecute, hs, this]
  · intro hs hgt
    simp [canExecute, hs, hgt]
  · intro hs
    by_cases hgt : now - cb.lastFailureTime > cb.halfOpenTimeout <;>
      simp [canExecute, hs, hgt]
  · intro hs hgt
    simp [canExecute, hs, hgt]
  · intro hs
    simp [recordSuccess, hs]
  · intro hs hth
    simp [recordFailure, hth, hs]

/-- C1, witness: the amended theorem instantiated on the default breaker
configuration (threshold 5, resetTimeout 60000, halfOpenTimeout 30000) and
concrete times. -/
theorem C1_amended_witness :
    ((recordFailureN 5 0 CircuitBreaker.default).state = .opened ∧
      (recordFailureN 5 0 CircuitBreaker.default).lastFailureTime = 0) ∧
    canExecute 60000 cbOpenW = (false, cbOpenW) ∧
    ((canExecute 60001 cbOpenW).1 = true ∧
      (canExecute 60001 cbOpenW).2.state = .halfOpen) ∧
    (canExecute 60001 cbHalfW).1 = true ∧
    ((canExecute 60001 cbHalfW).2.state = .closed ∧
      (canExecute 60001 cbHalfW).2.failures = 0) ∧
    ((recordSuccess cbHalfW).state = .closed ∧
      (recordSuccess cbHalfW).failures = 0) ∧
    (recordFailure 70000 cbHalfW).state = .opened :=
  ⟨(C1_amended CircuitBreaker.default 0 0).1 (by decide) (by decide) (by decide),
   (C1_amended cbOpenW 0 60000).2.1 (by decide) (by decide),
   (C1_amended cbOpenW 0 60001).2.2.1 (by decide) (by decide),
   (C1_amended cbHalfW 0 60001).2.2.2.1 (by decide),
   (C1_amended cbHalfW 0 60001).2.2.2.2.1 (by decide) (by decide),
   (C1_amended cbHalfW 0 0).2.2.2.2.2.1 (by decide),
   (C1_amended cbHalfW 70000 0).2.2.2.2.2.2 (by decide) (by decide)⟩

/-! ## Ranking parser (council.ts, parseRankingFromText)

The two regexes `/\d+\.\s*Response [A-Z]/g` and `/Response [A-Z]/g` are
embedded as maximal-munch scanners over `List Char`; they agree with
JavaScript's leftmost non-overlapping global matching on these patterns
(inside each pattern, the character class being repeated is disjoint from
the first character of what follows, so no backtracking can produce a
different match). -/

def isUpperAZ (c : Char) : Bool := 'A' ≤ c && c ≤ 'Z'

/-- JavaScript `\s` restricted to the ASCII whitespace characters. -/
def isJsSpace (c : Char) : Bool :=
  c = ' ' || c = '\t' || c = '\n' || c = '\r' || c = '\x0b' || c = '\x0c'

/-- The literal `Response ` (with trailing space) from both regexes. -/
def respLit : List Char := ['R', 'e', 's', 'p', 'o', 'n', 's', 'e', ' ']

/-- The literal `FINAL RANKING:` the parser looks for. -/
def finalRankingLit : List Char :=
  ['F', 'I', 'N', 'A', 'L', ' ', 'R', 'A', 'N', 'K', 'I', 'N', 'G', ':']

/-- Consume an exact literal from the front of the input. -/
def dropLit : List Char → List Char → Option (List Char)
  | [], s => some s
  | _ :: _, [] => none
  | p :: ps, c :: cs => if c = p then dropLit ps cs else none

theorem dropLit_self_append (p r : List Char) : dropLit p (p ++ r) = some r := by
  induction p with
  | nil => rfl
  | cons c cs ih => simp [dropLit, ih]

theorem dropLit_eq_some (p : List Char) :
    ∀ s r, dropLit p s = some r → s = p ++ r := by
  induction p with
  | nil =>
      intro s r h
      simpa [dropLit] using h
  | cons c cs ih =>
      intro s r h
      match s with
      | [] => simp [dropLit] at h
      | d :: ds =>
          by_cases hdc : d = c
          · subst hdc
            simp only [dropLit, if_pos rfl] at h
            simpa using ih ds r h
          · simp [dropLit, hdc] at h

/-- One attempt of `/Response [A-Z]/` at the start of `s`: on success returns
the matched letter and the remainder after the match. -/
def matchPlainAt (s : List Char) : Option (Char × List Char) :=
  match dropLit respLit s with
  | some (l :: rest) => if isUpperAZ l then some (l, rest) else none
  | _ => none

theorem matchPlainAt_eq_some (s : List Char) (l : Char) (r : List Char) :
    matchPlainAt s = some (l, r) ↔ s = respLit ++ l :: r ∧ isUpperAZ l = true := by
  constructor
  · intro h
    unfold matchPlainAt at h
    match hd : dropLit respLit s with
    | some (x :: rest) =>
        rw [hd] at h
        by_cases hu : isUpperAZ x
        · simp [hu] at h
          obtain ⟨hl, hr⟩ := h
          subst hl
          subst hr
          exact ⟨dropLit_eq_some _ _ _ hd, hu⟩
        · simp [hu] at h
    | some [] => rw [hd] at h; simp at h
    | none => rw [hd] at h; simp at h
  · rintro ⟨hs, hu⟩
    subst hs
    unfold matchPlainAt
    rw [dropLit_self_append]
    simp [hu]

theorem matchPlainAt_length (s : List Char) (l : Char) (r : List Char)
    (h : matchPlainAt s = some (l, r)) : r.length < s.length := by
  have := (matchPlainAt_eq_some s l r).mp h
  rw [this.1]
  simp [respLit]
  omega

/-- One attempt of `/\d+\.\s*Response [A-Z]/` at the start of `s`. -/
def matchNumberedAt (s : List Char) : Option (Char × List Char) :=
  match s with
  | [] => none
  | c :: cs =>
      if c.isDigit then
        match cs.dropWhile Char.isDigit with
        | '.' :: rest2 => matchPlainAt (rest2.dropWhile isJsSpace)
        | _ => none
      else none

theorem matchNumberedAt_length (s : List Char) (l : Char) (r : List Char)
    (h : matchNumberedAt s = some (l, r)) : r.length < s.length := by
  match s with
  | [] => simp [matchNumberedAt] at h
  | c :: cs =>
      simp only [matchNumberedAt] at h
      by_cases hdig : c.isDigit
      · rw [if_pos hdig] at h
        rcases hdw : cs.dropWhile Char.isDigit with _ | ⟨d, rest2⟩
        · rw [hdw] at h; simp at h
        · rw [hdw] at h
          by_cases hd : d = '.'
          · subst hd
            simp only [] at h
            have h1 : r.length < (rest2.dropWhile isJsSpace).length :=
              matchPlainAt_length _ _ _ h
            have h2 : (rest2.dropWhile isJsSpace).length ≤ rest2.length :=
              (List.dropWhile_suffix isJsSpace).length_le
            have h3 : ('.' :: rest2).length ≤ cs.length := by
              rw [← hdw]
              exact (List.dropWhile_suffix Char.isDigit).length_le
            simp at h3 ⊢
            omega
          · simp [hd] at h
      · rw [if_neg hdig] at h
        simp at h

/-- Fuel-driven worker for the global scan of `/Response [A-Z]/g`; one unit
of fuel is spent per character position, so `s.length` fuel always
suffices. -/
def scanPlainF : Nat → List Char → List Char
  | 0, _ => []
  | _ + 1, [] => []
  | fuel + 1, c :: cs =>
      match matchPlainAt (c :: cs) with
      | some (l, rest) => l :: scanPlainF fuel rest
      | none => scanPlainF fuel cs

/-- Global scan of `/Response [A-Z]/g`: matched letters in order of
appearance, leftmost, non-overlapping. -/
def scanPlain (s : List Char) : List Char := scanPlainF s.length s

/-- Fuel-driven worker for the global scan of `/\d+\.\s*Response [A-Z]/g`. -/
def scanNumberedF : Nat → List Char → List Char
  | 0, _ => []
  | _ + 1, [] => []
  | fuel + 1, c :: cs =>
      match matchNumberedAt (c :: cs) with
      | some (l, rest) => l :: scanNumberedF fuel rest
      | none => scanNumberedF fuel cs

/-- Global scan of `/\d+\.\s*Response [A-Z]/g`, keeping only the matched
letter of each match (the source maps each match through
`m.match(/Response [A-Z]/)`, which inside such a match always yields the
trailing `Response <letter>`). -/
def scanNumbered (s : List Char) : List Char := scanNumberedF s.length s

theorem scanPlainF_fuel (f1 : Nat) :
    ∀ f2 s, s.length ≤ f1 → s.length ≤ f2 → scanPlainF f1 s = scanPlainF f2 s := by
  induction f1 with
  | zero =>
      intro f2 s h1 _
      match s, h1 with
      | [], _ => cases f2 <;> rfl
  | succ k ih =>
      intro f2 s h1 h2
      match s with
      | [] => cases f2 <;> rfl
      | c :: cs =>
          cases f2 with
          | zero => simp at h2
          | succ m =>
              simp only [scanPlainF]
              cases hm : matchPlainAt (c :: cs) with
              | some p =>
                  obtain ⟨l, rest⟩ := p
                  have hlen := matchPlainAt_length _ _ _ hm
                  simp only [List.length_cons] at h1 h2 hlen
                  dsimp only
                  rw [ih m rest (by omega) (by omega)]
              | none =>
                  simp only [List.length_cons] at h1 h2
                  dsimp only
                  exact ih m cs (by omega) (by omega)

theorem scanPlain_cons_some (c : Char) (cs : List Char) (l : Char)
    (rest : List Char) (h : matchPlainAt (c :: cs) = some (l, rest)) :
    scanPlain (c :: cs) = l :: scanPlain rest := by
  have hlen := matchPlainAt_length _ _ _ h
  simp only [scanPlain, List.length_cons, scanPlainF, h]
  rw [scanPlainF_fuel cs.length rest.length rest (by simp at hlen; omega) le_rfl]

theorem scanPlain_cons_none (c : Char) (cs : List Char)
    (h : matchPlainAt (c :: cs) = none) :
    scanPlain (c :: cs) = scanPlain cs := by
  simp only [scanPlain, List.length_cons, scanPlainF, h]

theorem scanNumberedF_fuel (f1 : Nat) :
    ∀ f2 s, s.length ≤ f1 → s.length ≤ f2 →
      scanNumberedF f1 s = scanNumberedF f2 s := by
  induction f1 with
  | zero =>
      intro f2 s h1 _
      match s, h1 with
      | [], _ => cases f2 <;> rfl
  | succ k ih =>
      intro f2 s h1 h2
      match s with
      | [] => cases f2 <;> rfl
      | c :: cs =>
          cases f2 with
          | zero => simp at h2
          | succ m =>
              simp only [scanNumberedF]
              cases hm : matchNumberedAt (c :: cs) with
              | some p =>
                  obtain ⟨l, rest⟩ := p
                  have hlen := matchNumberedAt_length _ _ _ hm
                  simp only [List.length_cons] at h1 h2 hlen
                  dsimp only
                  rw [ih m rest (by omega) (by omega)]
              | none =>
                  simp only [List.length_cons] at h1 h2
                  dsimp only
                  exact ih m cs (by omega) (by omega)

theorem scanNumbered_cons_some (c : Char) (cs : List Char) (l : Char)
    (rest : List Char) (h : matchNumberedAt (c :: cs) = some (l, rest)) :
    scanNumbered (c :: cs) = l :: scanNumbered rest := by
  have hlen := matchNumberedAt_length _ _ _ h
  simp only [scanNumbered, List.length_cons, scanNumberedF, h]
  rw [scanNumberedF_fuel cs.length rest.length rest (by simp at hlen; omega) le_rfl]

theorem scanNumbered_cons_none (c : Char) (cs : List Char)
    (h : matchNumberedAt (c :: cs) = none) :
    scanNumbered (c :: cs) = scanNumbered cs := by
  simp only [scanNumbered, List.length_cons, scanNumberedF, h]

/-- `text.split(sep)` restricted to what the source uses: the text before the
first occurrence of `pat`, and the text after it (up to the next occurrence
of `pat`, which is where JavaScript's `parts[1]` ends — handled at use
sites). Returns `none` when `pat` does not occur, so `isSome` is
`text.includes(pat)`. -/
def splitFirst (pat : List Char) : List Char → Option (List Char × List Char)
  | [] => if pat.isPrefixOf ([] : List Char) then some ([], []) else none
  | c :: cs =>
      if pat.isPrefixOf (c :: cs) then some ([], (c :: cs).drop pat.length)
      else (splitFirst pat cs).map (fun p => (c :: p.1, p.2))

theorem splitFirst_eq_some (pat : List Char) :
    ∀ s pre post, splitFirst pat s = some (pre, post) → s = pre ++ pat ++ post := by
  intro s
  induction s with
  | nil =>
      intro pre post h
      unfold splitFirst at h
      by_cases hp : pat.isPrefixOf ([] : List Char)
      · rw [if_pos hp] at h
        have : pat = [] := by
          have := List.isPrefixOf_iff_prefix.mp hp
          simpa using this
        simp at h
        obtain ⟨h1, h2⟩ := h
        subst h1; subst h2; simp [this]
      · rw [if_neg hp] at h
        simp at h
  | cons c cs ih =>
      intro pre post h
      unfold splitFirst at h
      by_cases hp : pat.isPrefixOf (c :: cs)
      · rw [if_pos hp] at h
        simp at h
        obtain ⟨h1, h2⟩ := h
        subst h1
        obtain ⟨u, hu⟩ := List.isPrefixOf_iff_prefix.mp hp
        subst h2
        rw [← hu]
        simp [List.drop_left]
      · rw [if_neg hp] at h
        match hs : splitFirst pat cs with
        | none => rw [hs] at h; simp at h
        | some p =>
            rw [hs] at h
            simp at h
            obtain ⟨h1, h2⟩ := h
            have := ih p.1 p.2 (by rw [hs])
            subst h1
            subst h2
            simp [this]

/-- The string `Response <l>` a match is mapped to. -/
def labelText (l : Char) : String := String.mk (respLit ++ [l])

/-- `parseRankingFromText` (council.ts) over the character list. Mirrors the
source: locate `FINAL RANKING:`; in the split's second part (which ends at
the next occurrence of the marker, if any) prefer numbered matches, then
plain `Response <Letter>` matches; otherwise (or when the marker is absent)
fall back to plain matches over the whole text; `match` returning `null`
in JavaScript corresponds to the scan returning `[]`. -/
def parseRankingCore (t : List Char) : List String :=
  match splitFirst finalRankingLit t with
  | some (_, afterMarker) =>
      let rankingSection :=
        match splitFirst finalRankingLit afterMarker with
        | some (mid, _) => mid
        | none => afterMarker
      let numbered := scanNumbered rankingSection
      if numbered = [] then
        let plain := scanPlain rankingSection
        if plain = [] then (scanPlain t).map labelText
        else plain.map labelText
      else numbered.map labelText
  | none => (scanPlain t).map labelText

/-- `parseRankingFromText` on a `String`. -/
def parseRankingFromText (rankingText : String) : List String :=
  parseRankingCore rankingText.data

/-- The ranking section the source extracts: `none` when the text does not
contain `FINAL RANKING:`, otherwise the text between the first occurrence of
the marker and the next occurrence (or the end). -/
def rankingSectionOf (t : List Char) : Option (List Char) :=
  match splitFirst finalRankingLit t with
  | some (_, afterMarker) =>
      some (match splitFirst finalRankingLit afterMarker with
        | some (mid, _) => mid
        | none => afterMarker)
  | none => none

/-- An occurrence of the pattern `Response [A-Z]` somewhere in `s`. -/
def OccursResp (s : List Char) : Prop :=
  ∃ a l b, s = a ++ respLit ++ l :: b ∧ isUpperAZ l = true

theorem scanPlain_eq_nil_no_match (s : List Char) (h : scanPlain s = []) :
    ∀ u, u <:+ s → matchPlainAt u = none := by
  induction s with
  | nil =>
      intro u hu
      rw [List.suffix_nil.mp hu]
      rfl
  | cons c cs ih =>
      intro u hu
      cases hm : matchPlainAt (c :: cs) with
      | some p =>
          rw [scanPlain_cons_some c cs p.1 p.2 (by rw [hm])] at h
          simp at h
      | none =>
          rw [scanPlain_cons_none c cs hm] at h
          rcases List.suffix_cons_iff.mp hu with h1 | h1
          · rw [h1]; exact hm
          · exact ih h u h1

theorem occursResp_scanPlain_ne_nil (s : List Char) (h : OccursResp s) :
    scanPlain s ≠ [] := by
  intro hnil
  obtain ⟨a, l, b, hs, hu⟩ := h
  have hsuf : respLit ++ l :: b <:+ s := ⟨a, by rw [hs]; simp⟩
  have := scanPlain_eq_nil_no_match s hnil _ hsuf
  rw [(matchPlainAt_eq_some (respLit ++ l :: b) l b).mpr ⟨rfl, hu⟩] at this
  simp at this

theorem occursResp_cons (c : Char) (cs : List Char) (h : OccursResp cs) :
    OccursResp (c :: cs) := by
  obtain ⟨a, l, b, hs, hu⟩ := h
  exact ⟨c :: a, l, b, by rw [hs]; simp, hu⟩

theorem scanPlain_ne_nil_occurs (s : List Char) (h : scanPlain s ≠ []) :
    OccursResp s := by
  induction s with
  | nil => simp [scanPlain, scanPlainF] at h
  | cons c cs ih =>
      cases hm : matchPlainAt (c :: cs) with
      | some p =>
          have := (matchPlainAt_eq_some (c :: cs) p.1 p.2).mp (by rw [hm])
          exact ⟨[], p.1, p.2, by simpa using this.1, this.2⟩
      | none =>
          rw [scanPlain_cons_none c cs hm] at h
          exact occursResp_cons c cs (ih h)

theorem matchNumberedAt_occurs (s : List Char) (l : Char) (r : List Char)
    (h : matchNumberedAt s = some (l, r)) : OccursResp s := by
  match s with
  | [] => simp [matchNumberedAt] at h
  | c :: cs =>
      simp only [matchNumberedAt] at h
      by_cases hdig : c.isDigit
      · rw [if_pos hdig] at h
        rcases hdw : cs.dropWhile Char.isDigit with _ | ⟨d, rest2⟩
        · rw [hdw] at h; simp at h
        · rw [hdw] at h
          by_cases hd : d = '.'
          · subst hd
            simp only [] at h
            have heq := (matchPlainAt_eq_some _ l r).mp h
            have hsuf3 : rest2.dropWhile isJsSpace <:+ rest2 :=
              List.dropWhile_suffix isJsSpace
            have hsuf2 : rest2 <:+ cs := by
              have : ('.' :: rest2 : List Char) <:+ cs := by
                rw [← hdw]; exact List.dropWhile_suffix Char.isDigit
              exact (List.suffix_cons '.' rest2).trans this
            have hsufs : rest2.dropWhile isJsSpace <:+ c :: cs :=
              (hsuf3.trans hsuf2).trans (List.suffix_cons c cs)
            obtain ⟨a, ha⟩ := hsufs
            exact ⟨a, l, r, by rw [← ha, heq.1]; simp, heq.2⟩
          · simp [hd] at h
      · rw [if_neg hdig] at h
        simp at h

theorem scanNumbered_ne_nil_occurs (s : List Char) (h : scanNumbered s ≠ []) :
    OccursResp s := by
  induction s with
  | nil => simp [scanNumbered, scanNumberedF] at h
  | cons c cs ih =>
      cases hm : matchNumberedAt (c :: cs) with
      | some p =>
          exact matchNumberedAt_occurs (c :: cs) p.1 p.2 (by rw [hm])
      | none =>
          rw [scanNumbered_cons_none c cs hm] at h
          exact occursResp_cons c cs (ih h)

theorem occursResp_embed (x m y : List Char) (h : OccursResp m) :
    OccursResp (x ++ m ++ y) := by
  obtain ⟨a, l, b, hs, hu⟩ := h
  exact ⟨x ++ a, l, b ++ y, by rw [hs]; simp, hu⟩

theorem rankingSectionOf_decomp (t sec : List Char)
    (h : rankingSectionOf t = some sec) :
    ∃ pre tail, t = pre ++ finalRankingLit ++ sec ++ tail := by
  unfold rankingSectionOf at h
  match hsp : splitFirst finalRankingLit t with
  | none => rw [hsp] at h; simp at h
  | some (pre, after) =>
      rw [hsp] at h
      dsimp only at h
      have ht := splitFirst_eq_some _ _ _ _ hsp
      match hsp2 : splitFirst finalRankingLit after with
      | none =>
          rw [hsp2] at h
          simp at h
          subst h
          exact ⟨pre, [], by rw [ht]; simp⟩
      | some (mid, post2) =>
          rw [hsp2] at h
          simp at h
          subst h
          have ha := splitFirst_eq_some _ _ _ _ hsp2
          exact ⟨pre, finalRankingLit ++ post2, by rw [ht, ha]; simp⟩

theorem parseRankingCore_eq_of_section (t sec : List Char)
    (h : rankingSectionOf t = some sec) :
    parseRankingCore t =
      (if scanNumbered sec = [] then
        if scanPlain sec = [] then (scanPlain t).map labelText
        else (scanPlain sec).map labelText
      else (scanNumbered sec).map labelText) := by
  unfold rankingSectionOf at h
  unfold parseRankingCore
  match hsp : splitFirst finalRankingLit t with
  | none => rw [hsp] at h; simp at h
  | some (pre, after) =>
      rw [hsp] at h
      dsimp only at h ⊢
      match hsp2 : splitFirst finalRankingLit after with
      | none =>
          rw [hsp2] at h
          simp at h
          subst h
          rfl
      | some (mid, post2) =>
          rw [hsp2] at h
          simp at h
          subst h
          rfl

theorem parseRankingCore_eq_of_no_section (t : List Char)
    (h : rankingSectionOf t = none) :
    parseRankingCore t = (scanPlain t).map labelText := by
  unfold rankingSectionOf at h
  unfold parseRankingCore
  match hsp : splitFirst finalRankingLit t with
  | none => rfl
  | some (pre, after) => rw [hsp] at h; simp at h

/-- C2, counterexample. On the text `Response B FINAL RANKING: Response A`
the marker is present and no numbered pattern matches, so by the claim the
`Response <Letter>` occurrences anywhere in the text — `Response B` then
`Response A` — should be taken in order; but the source first scans the part
after the marker alone, so the parser returns only `["Response A"]`. -/
theorem C2_counterexample :
    (splitFirst finalRankingLit ("Response B FINAL RANKING: Response A".data)).isSome
        = true ∧
    scanNumbered ("Response B FINAL RANKING: Response A".data) = [] ∧
    (scanPlain ("Response B FINAL RANKING: Response A".data)).map labelText =
      ["Response B", "Response A"] ∧
    parseRankingFromText "Response B FINAL RANKING: Response A" =
      ["Response A"] := by
  decide

/-- C2 (amended): `parseRankingFromText` computes the parsed order as
follows. If the text contains `FINAL RANKING:`, matches of
`<number>. Response <Letter>` in the section after it (up to the next
occurrence of the marker, if any) are preferred, in order of appearance —
so `FINAL RANKING:\n1. Response C\n2. Response A` parses to
`["Response C", "Response A"]`. If no numbered match exists,
`Response <Letter>` occurrences *within that section* are taken in order;
only when the section contains none (or the marker is absent) are
occurrences anywhere in the whole text taken in order. A text with no
recognizable label anywhere yields `[]` rather than an error, and
conversely the result is empty only for such texts. -/
theorem C2_amended (t : String) :
    (parseRankingFromText "FINAL RANKING:\n1. Response C\n2. Response A" =
      ["Response C", "Response A"]) ∧
    (∀ sec, rankingSectionOf t.data = some sec →
      (scanNumbered sec ≠ [] →
        parseRankingFromText t = (scanNumbered sec).map labelText) ∧
      (scanNumbered sec = [] → scanPlain sec ≠ [] →
        parseRankingFromText t = (scanPlain sec).map labelText) ∧
      (scanNumbered sec = [] → scanPlain sec = [] →
        parseRankingFromText t = (scanPlain t.data).map labelText)) ∧
    (rankingSectionOf t.data = none →
      parseRankingFromText t = (scanPlain t.data).map labelText) ∧
    (parseRankingFromText t = [] ↔ scanPlain t.data = []) := by
  refine ⟨by decide, ?_, ?_, ?_⟩
  · intro sec hsec
    unfold parseRankingFromText
    rw [parseRankingCore_eq_of_section t.data sec hsec]
    refine ⟨?_, ?_, ?_⟩
    · intro hn
      simp [hn]
    · intro hn hp
      simp [hn, hp]
    · intro hn hp
      simp [hn, hp]
  · intro hnone
    unfold parseRankingFromText
    exact parseRankingCore_eq_of_no_section t.data hnone
  · constructor
    · intro h
      cases hsec : rankingSectionOf t.data with
      | none =>
          unfold parseRankingFromText at h
          rw [parseRankingCore_eq_of_no_section t.data hsec] at h
          exact List.map_eq_nil_iff.mp h
      | some sec =>
          unfold parseRankingFromText at h
          rw [parseRankingCore_eq_of_section t.data sec hsec] at h
          by_cases hn : scanNumbered sec = []
          · by_cases hp : scanPlain sec = []
            · rw [if_pos hn, if_pos hp] at h
              exact List.map_eq_nil_iff.mp h
            · rw [if_pos hn, if_neg hp] at h
              exact absurd (List.map_eq_nil_iff.mp h) hp
          · rw [if_neg hn] at h
            exact absurd (List.map_eq_nil_iff.mp h) hn
    · intro h
      cases hsec : rankingSectionOf t.data with
      | none =>
          unfold parseRankingFromText
          rw [parseRankingCore_eq_of_no_section t.data hsec, h]
          rfl
      | some sec =>
          obtain ⟨pre, tail, hdec⟩ := rankingSectionOf_decomp t.data sec hsec
          have hocc : ¬ OccursResp sec := by
            intro hoc
            have : OccursResp t.data := by
              have := occursResp_embed (pre ++ finalRankingLit) sec tail hoc
              rw [hdec]
              simpa [List.append_assoc] using this
            exact occursResp_scanPlain_ne_nil t.data this h
          have hn : scanNumbered sec = [] := by
            by_contra hne
            exact hocc (scanNumbered_ne_nil_occurs sec hne)
          have hp : scanPlain sec = [] := by
            by_contra hne
            exact hocc (scanPlain_ne_nil_occurs sec hne)
          unfold parseRankingFromText
          rw [parseRankingCore_eq_of_section t.data sec hsec, if_pos hn, if_pos hp,
            h]
          rfl

/-- C2, witness: the amended theorem applied to a text whose section after
`FINAL RANKING:` contains the numbered match `1. Response B`. -/
theorem C2_amended_witness :
    parseRankingFromText "x FINAL RANKING: 1. Response B done" =
      ["Response B"] := by
  have h := ((C2_amended "x FINAL RANKING: 1. Response B done").2.1
    (" 1. Response B done".data) (by decide)).1 (by decide)
  rw [h]
  decide

/-! ## Aggregate rankings (council.ts, calculateAggregateRankings)

`Record<string, T>` values are insertion-ordered association lists
(`recSet` assigns: overwrite in place / append if fresh; `recGet?` reads;
`Object.entries` is the list itself). Floating-point averages are modelled
as exact rationals; `Math.round` is half-up rounding toward `+∞`. -/

structure Stage2Result where
  model : String
  ranking : String
  parsed_ranking : List String
deriving DecidableEq

structure AggregateRanking where
  model : String
  average_rank : ℚ
  rankings_count : Nat
deriving DecidableEq

/-- JavaScript object assignment `m[k] = v`. -/
def recSet {α : Type} (m : List (String × α)) (k : String) (v : α) :
    List (String × α) :=
  if m.any (fun p => p.1 = k) then
    m.map (fun p => if p.1 = k then (k, v) else p)
  else m ++ [(k, v)]

/-- JavaScript object read `m[k]` (`none` = `undefined`); `k in m` is
`(recGet? m k).isSome`. -/
def recGet? {α : Type} (m : List (String × α)) (k : String) : Option α :=
  (m.find? (fun p => p.1 = k)).map Prod.snd

/-- JavaScript `Math.round` on an exact rational: half-up, toward `+∞`. -/
def jsRound (q : ℚ) : ℤ := ⌊q + 1 / 2⌋

/-- `Math.round(q * 100) / 100`. -/
def round2 (q : ℚ) : ℚ := (jsRound (q * 100) : ℚ) / 100

/-- The inner Stage-2 loop of `calculateAggregateRankings`: walk one parsed
ranking, pairing entries with 1-based positions, and record each position
under the model its label maps to (labels outside `labelToModel` are
skipped; a model absent from the accumulator is added at the end, as
JavaScript property creation does). -/
def posStep (ltm : List (String × String))
    (acc2 : List (String × List Nat)) (lp : String × Nat) :
    List (String × List Nat) :=
  match recGet? ltm lp.1 with
  | some modelName =>
      match recGet? acc2 modelName with
      | some ps => recSet acc2 modelName (ps ++ [lp.2])
      | none => acc2 ++ [(modelName, [lp.2])]
  | none => acc2

def addPositions (ltm : List (String × String))
    (acc : List (String × List Nat)) (parsed : List String) :
    List (String × List Nat) :=
  (parsed.zip (List.range' 1 parsed.length)).foldl (posStep ltm) acc

/-- `modelPositions` accumulated over all Stage-2 results (each ranking text
re-parsed by `parseRankingFromText`, as the source does). -/
def modelPositions (stage2 : List Stage2Result)
    (ltm : List (String × String)) : List (String × List Nat) :=
  stage2.foldl (fun acc r => addPositions ltm acc (parseRankingFromText r.ranking)) []

/-- The aggregate list before sorting: one entry per model with recorded
positions, `average_rank` the rounded mean, `rankings_count` the number of
positions. -/
def aggEntries (mp : List (String × List Nat)) : List AggregateRanking :=
  mp.filterMap (fun p =>
    if p.2.length > 0 then
      some ⟨p.1, round2 ((p.2.sum : ℚ) / (p.2.length : ℚ)), p.2.length⟩
    else none)

/-- The sort order `aggregate.sort((a, b) => a.average_rank - b.average_rank)`
uses: ascending by `average_rank`. -/
def rankLE (a b : AggregateRanking) : Prop := a.average_rank ≤ b.average_rank

instance : DecidableRel rankLE :=
  fun a b => inferInstanceAs (Decidable (a.average_rank ≤ b.average_rank))

instance : IsTotal AggregateRanking rankLE :=
  ⟨fun a b => le_total a.average_rank b.average_rank⟩

instance : IsTrans AggregateRanking rankLE :=
  ⟨fun _ _ _ h1 h2 => le_trans h1 h2⟩

/-- `calculateAggregateRankings` (council.ts). JavaScript's
`Array.prototype.sort` with this comparator is a stable ascending sort
(stability is guaranteed by the language specification), and the stable
ascending permutation of a list is unique, so stable insertion sort models
it exactly. -/
def calculateAggregateRankings (stage2 : List Stage2Result)
    (ltm : List (String × String)) : List AggregateRanking :=
  List.insertionSort rankLE (aggEntries (modelPositions stage2 ltm))

/-- Specification-level definition of the 1-based positions model `m`
receives across the parsed rankings, in order. -/
def positionsOfModel (parsedLists : List (List String))
    (ltm : List (String × String)) (m : String) : List Nat :=
  (parsedLists.map (fun parsed =>
    (parsed.zip (List.range' 1 parsed.length)).filterMap
      (fun lp => if recGet? ltm lp.1 = some m then some lp.2 else none))).flatten

/-- The positions one pair list contributes to model `m`. -/
def pairPositions (ltm : List (String × String)) (m : String)
    (pairs : List (String × Nat)) : List Nat :=
  pairs.filterMap (fun lp => if recGet? ltm lp.1 = some m then some lp.2 else none)

def optList (o : Option (List Nat)) : List Nat := o.getD []

theorem recSet_cons_ne {α : Type} (p : String × α) (ps : List (String × α))
    (k : String) (v : α) (h : ¬ p.1 = k) :
    recSet (p :: ps) k v = p :: recSet ps k v := by
  unfold recSet
  by_cases hany : ps.any (fun q => q.1 = k)
  · rw [if_pos (by simp [hany]), if_pos hany]
    simp [h]
  · rw [if_neg (by simp [h, hany]), if_neg hany]
    simp

theorem recGet?_cons_ne {α : Type} (p : String × α) (ps : List (String × α))
    (k : String) (h : ¬ p.1 = k) :
    recGet? (p :: ps) k = recGet? ps k := by
  simp [recGet?, List.find?, h]

theorem recGet?_cons_eq {α : Type} (p : String × α) (ps : List (String × α))
    (k : String) (h : p.1 = k) :
    recGet? (p :: ps) k = some p.2 := by
  simp [recGet?, List.find?, h]

theorem recGet?_recSet_self {α : Type} (m : List (String × α)) (k : String)
    (v : α) : recGet? (recSet m k v) k = some v := by
  induction m with
  | nil => simp [recSet, recGet?, List.find?]
  | cons p ps ih =>
      by_cases hp : p.1 = k
      · have : recSet (p :: ps) k v =
            (k, v) :: ps.map (fun q => if q.1 = k then (k, v) else q) := by
          unfold recSet
          rw [if_pos (by simp [hp])]
          simp [hp]
        rw [this, recGet?_cons_eq _ _ _ rfl]
      · rw [recSet_cons_ne p ps k v hp, recGet?_cons_ne _ _ _ hp]
        exact ih

theorem recGet?_map_overwrite {α : Type} (ps : List (String × α)) (k k' : String)
    (v : α) (h : ¬ k = k') :
    recGet? (ps.map (fun q => if q.1 = k then (k, v) else q)) k' = recGet? ps k' := by
  induction ps with
  | nil => rfl
  | cons q qs ih =>
      by_cases hq : q.1 = k
      · simp only [List.map_cons, if_pos hq]
        rw [recGet?_cons_ne _ _ _ (by simpa using h),
          recGet?_cons_ne _ _ _ (by rw [hq]; simpa using h)]
        exact ih
      · simp only [List.map_cons, if_neg hq]
        by_cases hq' : q.1 = k'
        · rw [recGet?_cons_eq _ _ _ hq', recGet?_cons_eq _ _ _ hq']
        · rw [recGet?_cons_ne _ _ _ hq', recGet?_cons_ne _ _ _ hq']
          exact ih

theorem recGet?_append_fresh {α : Type} (m : List (String × α)) (k : String)
    (v : α) (h : recGet? m k = none) :
    recGet? (m ++ [(k, v)]) k = some v := by
  induction m with
  | nil => simp [recGet?, List.find?]
  | cons p ps ih =>
      by_cases hp : p.1 = k
      · rw [recGet?_cons_eq _ _ _ hp] at h
        simp at h
      · rw [recGet?_cons_ne _ _ _ hp] at h
        rw [List.cons_append, recGet?_cons_ne _ _ _ hp]
        exact ih h

theorem recGet?_append_ne {α : Type} (m : List (String × α)) (k k' : String)
    (v : α) (h : ¬ k = k') :
    recGet? (m ++ [(k, v)]) k' = recGet? m k' := by
  induction m with
  | nil => simp [recGet?, List.find?, h]
  | cons p ps ih =>
      by_cases hp : p.1 = k'
      · rw [List.cons_append, recGet?_cons_eq _ _ _ hp, recGet?_cons_eq _ _ _ hp]
      · rw [List.cons_append, recGet?_cons_ne _ _ _ hp, recGet?_cons_ne _ _ _ hp]
        exact ih

theorem recGet?_recSet_ne {α : Type} (m : List (String × α)) (k k' : String)
    (v : α) (h : ¬ k = k') :
    recGet? (recSet m k v) k' = recGet? m k' := by
  unfold recSet
  by_cases hany : m.any (fun p => p.1 = k)
  · rw [if_pos hany]
    exact recGet?_map_overwrite m k k' v h
  · rw [if_neg hany]
    exact recGet?_append_ne m k k' v h

theorem posStep_foldl (ltm : List (String × String)) (pairs : List (String × Nat)) :
    ∀ acc m,
      (recGet? (pairs.foldl (posStep ltm) acc) m = none ↔
        recGet? acc m = none ∧ pairPositions ltm m pairs = []) ∧
      optList (recGet? (pairs.foldl (posStep ltm) acc) m) =
        optList (recGet? acc m) ++ pairPositions ltm m pairs := by
  induction pairs with
  | nil =>
      intro acc m
      constructor
      · simp [pairPositions]
      · simp [pairPositions]
  | cons lp rest ih =>
      intro acc m
      have hstep : recGet? (posStep ltm acc lp) m =
          (if recGet? ltm lp.1 = some m then
            some (optList (recGet? acc m) ++ [lp.2]) else recGet? acc m) := by
        unfold posStep
        cases h1 : recGet? ltm lp.1 with
        | none => simp
        | some mn =>
            by_cases hmn : mn = m
            · subst hmn
              cases h2 : recGet? acc mn with
              | some ps => simp [recGet?_recSet_self, h2, optList]
              | none => simp [recGet?_append_fresh acc mn _ h2, h2, optList]
            · cases h2 : recGet? acc mn with
              | some ps => simp [h2, recGet?_recSet_ne acc mn m _ hmn, hmn]
              | none => simp [h2, recGet?_append_ne acc mn m _ hmn, hmn]
      have hpp : pairPositions ltm m (lp :: rest) =
          (if recGet? ltm lp.1 = some m then [lp.2] else []) ++
            pairPositions ltm m rest := by
        by_cases hc : recGet? ltm lp.1 = some m <;>
          simp [pairPositions, List.filterMap_cons, hc]
      rw [List.foldl_cons]
      obtain ⟨ih1, ih2⟩ := ih (posStep ltm acc lp) m
      by_cases hc : recGet? ltm lp.1 = some m
      · rw [if_pos hc] at hstep
        constructor
        · rw [ih1, hstep, hpp, if_pos hc]
          simp
        · rw [ih2, hstep, hpp, if_pos hc]
          simp [optList, List.append_assoc]
      · rw [if_neg hc] at hstep
        constructor
        · rw [ih1, hstep, hpp, if_neg hc]
          simp
        · rw [ih2, hstep, hpp, if_neg hc]
          simp

theorem modelPositions_foldl (ltm : List (String × String))
    (rs : List Stage2Result) :
    ∀ acc m,
      (recGet? (rs.foldl
          (fun a r => addPositions ltm a (parseRankingFromText r.ranking)) acc) m
          = none ↔
        recGet? acc m = none ∧
          positionsOfModel (rs.map fun r => parseRankingFromText r.ranking) ltm m
            = []) ∧
      optList (recGet? (rs.foldl
          (fun a r => addPositions ltm a (parseRankingFromText r.ranking)) acc) m) =
        optList (recGet? acc m) ++
          positionsOfModel (rs.map fun r => parseRankingFromText r.ranking) ltm m := by
  induction rs with
  | nil =>
      intro acc m
      constructor
      · simp [positionsOfModel]
      · simp [positionsOfModel]
  | cons r rest ih =>
      intro acc m
      have hpos : positionsOfModel
          ((r :: rest).map fun x => parseRankingFromText x.ranking) ltm m =
          pairPositions ltm m
            ((parseRankingFromText r.ranking).zip
              (List.range' 1 (parseRankingFromText r.ranking).length)) ++
          positionsOfModel (rest.map fun x => parseRankingFromText x.ranking) ltm m := by
        simp [positionsOfModel, pairPositions]
      rw [List.foldl_cons]
      obtain ⟨ih1, ih2⟩ := ih (addPositions ltm acc (parseRankingFromText r.ranking)) m
      obtain ⟨hs1, hs2⟩ := posStep_foldl ltm
        ((parseRankingFromText r.ranking).zip
          (List.range' 1 (parseRankingFromText r.ranking).length)) acc m
      constructor
      · rw [ih1, hpos]
        unfold addPositions
        rw [hs1]
        constructor
        · rintro ⟨⟨ha, hb⟩, hc⟩
          exact ⟨ha, by rw [hb, hc]; rfl⟩
        · rintro ⟨ha, hb⟩
          rw [List.append_eq_nil] at hb
          exact ⟨⟨ha, hb.1⟩, hb.2⟩
      · rw [ih2, hpos]
        unfold addPositions
        rw [hs2, List.append_assoc]

/-- The `modelPositions` record agrees with the specification-level
`positionsOfModel`: a model is a key exactly when it received at least one
position, and then its value is the position list in order. -/
theorem modelPositions_spec (stage2 : List Stage2Result)
    (ltm : List (String × String)) (m : String) :
    (recGet? (modelPositions stage2 ltm) m = none ↔
      positionsOfModel (stage2.map fun r => parseRankingFromText r.ranking) ltm m
        = []) ∧
    optList (recGet? (modelPositions stage2 ltm) m) =
      positionsOfModel (stage2.map fun r => parseRankingFromText r.ranking) ltm m := by
  have h := modelPositions_foldl ltm stage2 [] m
  have hnil : recGet? ([] : List (String × List Nat)) m = none := by
    simp [recGet?]
  unfold modelPositions
  rw [hnil] at h
  simpa [optList] using h

def recKeys {α : Type} (m : List (String × α)) : List String := m.map Prod.fst

theorem recGet?_eq_none_iff {α : Type} (m : List (String × α)) (k : String) :
    recGet? m k = none ↔ k ∉ recKeys m := by
  induction m with
  | nil => simp [recGet?, recKeys]
  | cons p ps ih =>
      by_cases hp : p.1 = k
      · rw [recGet?_cons_eq p ps k hp]
        simp only [recKeys, List.map_cons, List.mem_cons, not_or]
        constructor
        · intro h; cases h
        · intro h; exact absurd hp.symm h.1
      · rw [recGet?_cons_ne p ps k hp]
        rw [ih]
        simp only [recKeys, List.map_cons, List.mem_cons, not_or]
        constructor
        · intro h; exact ⟨fun he => hp he.symm, h⟩
        · intro h; exact h.2

theorem recAny_iff {α : Type} (m : List (String × α)) (k : String) :
    (m.any (fun p => p.1 = k)) = true ↔ k ∈ recKeys m := by
  simp [recKeys, List.any_eq_true, List.mem_map]

theorem recSet_mem {α : Type} (m : List (String × α)) (k : String) (v : α) :
    ∀ p ∈ recSet m k v, p ∈ m ∨ p = (k, v) := by
  intro p hp
  unfold recSet at hp
  by_cases hany : m.any (fun q => q.1 = k)
  · rw [if_pos hany] at hp
    obtain ⟨q, hq, hqe⟩ := List.mem_map.mp hp
    by_cases hqk : q.1 = k
    · right
      rw [← hqe]
      simp [hqk]
    · left
      rw [← hqe]
      simpa [hqk] using hq
  · rw [if_neg hany] at hp
    rcases List.mem_append.mp hp with h1 | h1
    · exact Or.inl h1
    · right
      simpa using h1

theorem recKeys_recSet_of_any {α : Type} (m : List (String × α)) (k : String)
    (v : α) (hany : m.any (fun p => p.1 = k)) :
    recKeys (recSet m k v) = recKeys m := by
  unfold recSet
  rw [if_pos hany]
  unfold recKeys
  rw [List.map_map]
  apply List.map_congr_left
  intro p _
  by_cases hpk : p.1 = k <;> simp [hpk]

theorem nodup_recKeys_recSet {α : Type} (m : List (String × α)) (k : String)
    (v : α) (h : (recKeys m).Nodup) : (recKeys (recSet m k v)).Nodup := by
  by_cases hany : m.any (fun p => p.1 = k)
  · rw [recKeys_recSet_of_any m k v hany]
    exact h
  · unfold recSet
    rw [if_neg hany]
    have hk : k ∉ recKeys m := by
      simp only [recKeys, List.mem_map]
      rintro ⟨p, hp, hpk⟩
      exact hany (List.any_eq_true.mpr ⟨p, hp, by simp [hpk]⟩)
    unfold recKeys
    rw [List.map_append]
    rw [List.nodup_append]
    refine ⟨h, List.nodup_singleton k, ?_⟩
    intro a ha hb
    simp at hb
    subst hb
    exact hk ha

theorem nodup_recKeys_append_fresh {α : Type} (m : List (String × α))
    (k : String) (v : α) (hnone : recGet? m k = none)
    (h : (recKeys m).Nodup) : (recKeys (m ++ [(k, v)])).Nodup := by
  have hk : k ∉ recKeys m := (recGet?_eq_none_iff m k).mp hnone
  unfold recKeys
  rw [List.map_append]
  rw [List.nodup_append]
  refine ⟨h, List.nodup_singleton k, ?_⟩
  intro a ha hb
  simp at hb
  subst hb
  exact hk ha

theorem nodup_recKeys_posStep (ltm : List (String × String))
    (acc : List (String × List Nat)) (lp : String × Nat)
    (h : (recKeys acc).Nodup) : (recKeys (posStep ltm acc lp)).Nodup := by
  unfold posStep
  cases recGet? ltm lp.1 with
  | none => exact h
  | some mn =>
      dsimp only
      cases h2 : recGet? acc mn with
      | some ps =>
          dsimp only
          exact nodup_recKeys_recSet acc mn _ h
      | none =>
          dsimp only
          exact nodup_recKeys_append_fresh acc mn _ h2 h

theorem nodup_recKeys_foldl_posStep (ltm : List (String × String))
    (pairs : List (String × Nat)) :
    ∀ acc, (recKeys acc).Nodup →
      (recKeys (pairs.foldl (posStep ltm) acc)).Nodup := by
  induction pairs with
  | nil => intro acc h; exact h
  | cons lp rest ih =>
      intro acc h
      rw [List.foldl_cons]
      exact ih _ (nodup_recKeys_posStep ltm acc lp h)

theorem nodup_recKeys_modelPositions (stage2 : List Stage2Result)
    (ltm : List (String × String)) :
    (recKeys (modelPositions stage2 ltm)).Nodup := by
  unfold modelPositions
  have : ∀ (rs : List Stage2Result) (acc : List (String × List Nat)),
      (recKeys acc).Nodup →
      (recKeys (rs.foldl
        (fun a (r : Stage2Result) =>
          addPositions ltm a (parseRankingFromText r.ranking)) acc)).Nodup := by
    intro rs
    induction rs with
    | nil => intro acc h; exact h
    | cons r rest ih =>
        intro acc h
        rw [List.foldl_cons]
        exact ih _ (nodup_recKeys_foldl_posStep ltm _ acc h)
  exact this stage2 [] (by simp [recKeys])

theorem recGet?_of_mem {α : Type} (m : List (String × α)) (p : String × α)
    (hnd : (recKeys m).Nodup) (hp : p ∈ m) : recGet? m p.1 = some p.2 := by
  induction m with
  | nil => cases hp
  | cons q qs ih =>
      rcases List.mem_cons.mp hp with h1 | h1
      · subst h1
        exact recGet?_cons_eq p qs p.1 rfl
      · have hne : ¬ q.1 = p.1 := by
          intro he
          have : p.1 ∈ recKeys qs := List.mem_map.mpr ⟨p, h1, rfl⟩
          rw [← he] at this
          exact (List.nodup_cons.mp hnd).1 this
        rw [recGet?_cons_ne q qs p.1 hne]
        exact ih (List.nodup_cons.mp hnd).2 h1

theorem mem_aggEntries_iff (mp : List (String × List Nat))
    (e : AggregateRanking) :
    e ∈ aggEntries mp ↔ ∃ p ∈ mp, 0 < p.2.length ∧
      e = ⟨p.1, round2 ((p.2.sum : ℚ) / (p.2.length : ℚ)), p.2.length⟩ := by
  unfold aggEntries
  rw [List.mem_filterMap]
  constructor
  · rintro ⟨p, hp, hf⟩
    by_cases hl : p.2.length > 0
    · rw [if_pos hl] at hf
      exact ⟨p, hp, hl, (Option.some.inj hf).symm⟩
    · rw [if_neg hl] at hf
      cases hf
  · rintro ⟨p, hp, hl, he⟩
    exact ⟨p, hp, by rw [if_pos hl, he]⟩

theorem mem_calc_iff (stage2 : List Stage2Result)
    (ltm : List (String × String)) (e : AggregateRanking) :
    e ∈ calculateAggregateRankings stage2 ltm ↔
      e ∈ aggEntries (modelPositions stage2 ltm) :=
  (List.perm_insertionSort rankLE _).mem_iff

/-- The models assigned by one parsed ranking, in position order: the
label→model image of each entry whose label is a key of `labelToModel`. -/
def assignedOf (ltm : List (String × String)) (parsed : List String) :
    List String :=
  (parsed.zip (List.range' 1 parsed.length)).filterMap
    (fun lp => recGet? ltm lp.1)

/-- Keep the first occurrence of each element not already in `seen`, in
order of appearance. -/
def firstOccurFrom : List String → List String → List String
  | _, [] => []
  | seen, x :: xs =>
      if x ∈ seen then firstOccurFrom seen xs
      else x :: firstOccurFrom (seen ++ [x]) xs

/-- Specification-level first-seen order: the models that receive at least
one position across the parsed rankings, in the order each was first
assigned one. -/
def firstSeenModels (parsedLists : List (List String))
    (ltm : List (String × String)) : List String :=
  firstOccurFrom [] ((parsedLists.map (assignedOf ltm)).flatten)

theorem firstOccurFrom_cons_mem (seen : List String) (x : String)
    (xs : List String) (h : x ∈ seen) :
    firstOccurFrom seen (x :: xs) = firstOccurFrom seen xs := by
  simp [firstOccurFrom, h]

theorem firstOccurFrom_cons_not_mem (seen : List String) (x : String)
    (xs : List String) (h : x ∉ seen) :
    firstOccurFrom seen (x :: xs) = x :: firstOccurFrom (seen ++ [x]) xs := by
  simp [firstOccurFrom, h]

theorem firstOccurFrom_append (a : List String) :
    ∀ seen b, firstOccurFrom seen (a ++ b) =
      firstOccurFrom seen a ++
        firstOccurFrom (seen ++ firstOccurFrom seen a) b := by
  induction a with
  | nil =>
      intro seen b
      simp [firstOccurFrom]
  | cons x xs ih =>
      intro seen b
      rw [List.cons_append]
      by_cases hx : x ∈ seen
      · rw [firstOccurFrom_cons_mem seen x _ hx, firstOccurFrom_cons_mem seen x xs hx,
          ih seen b]
      · rw [firstOccurFrom_cons_not_mem seen x _ hx,
          firstOccurFrom_cons_not_mem seen x xs hx, ih (seen ++ [x]) b]
        simp [List.append_assoc]

theorem posStep_of_none (ltm : List (String × String))
    (acc : List (String × List Nat)) (lp : String × Nat)
    (h1 : recGet? ltm lp.1 = none) : posStep ltm acc lp = acc := by
  unfold posStep
  rw [h1]

theorem posStep_of_present (ltm : List (String × String))
    (acc : List (String × List Nat)) (lp : String × Nat) (mn : String)
    (ps : List Nat) (h1 : recGet? ltm lp.1 = some mn)
    (h2 : recGet? acc mn = some ps) :
    posStep ltm acc lp = recSet acc mn (ps ++ [lp.2]) := by
  unfold posStep
  rw [h1]
  dsimp only
  rw [h2]

theorem posStep_of_fresh (ltm : List (String × String))
    (acc : List (String × List Nat)) (lp : String × Nat) (mn : String)
    (h1 : recGet? ltm lp.1 = some mn) (h2 : recGet? acc mn = none) :
    posStep ltm acc lp = acc ++ [(mn, [lp.2])] := by
  unfold posStep
  rw [h1]
  dsimp only
  rw [h2]

theorem posStep_foldl_keys (ltm : List (String × String))
    (pairs : List (String × Nat)) :
    ∀ acc, recKeys (pairs.foldl (posStep ltm) acc) =
      recKeys acc ++ firstOccurFrom (recKeys acc)
        (pairs.filterMap (fun lp => recGet? ltm lp.1)) := by
  induction pairs with
  | nil =>
      intro acc
      simp [firstOccurFrom]
  | cons lp rest ih =>
      intro acc
      rw [List.foldl_cons, List.filterMap_cons]
      cases h1 : recGet? ltm lp.1 with
      | none =>
          rw [posStep_of_none ltm acc lp h1]
          exact ih acc
      | some mn =>
          dsimp only
          by_cases hmem : mn ∈ recKeys acc
          · cases h2 : recGet? acc mn with
            | none =>
                exact absurd ((recGet?_eq_none_iff acc mn).mp h2) (by simpa using hmem)
            | some ps =>
                rw [posStep_of_present ltm acc lp mn ps h1 h2, ih _,
                  recKeys_recSet_of_any acc mn _ ((recAny_iff acc mn).mpr hmem),
                  firstOccurFrom_cons_mem _ mn _ hmem]
          · have h2 : recGet? acc mn = none := (recGet?_eq_none_iff acc mn).mpr hmem
            rw [posStep_of_fresh ltm acc lp mn h1 h2, ih _]
            have hkeys : recKeys (acc ++ [(mn, [lp.2])]) = recKeys acc ++ [mn] := by
              simp [recKeys]
            rw [hkeys, firstOccurFrom_cons_not_mem _ mn _ hmem]
            simp [List.append_assoc]

/-- The key order of `modelPositions` is the first-seen order of models
across the parsed rankings. -/
theorem modelPositions_keys (stage2 : List Stage2Result)
    (ltm : List (String × String)) :
    recKeys (modelPositions stage2 ltm) =
      firstSeenModels (stage2.map fun r => parseRankingFromText r.ranking) ltm := by
  unfold modelPositions firstSeenModels
  suffices haux : ∀ (rs : List Stage2Result) (acc : List (String × List Nat)),
      recKeys (rs.foldl
        (fun a r => addPositions ltm a (parseRankingFromText r.ranking)) acc) =
      recKeys acc ++ firstOccurFrom (recKeys acc)
        (((rs.map fun r => parseRankingFromText r.ranking).map
          (assignedOf ltm)).flatten) by
    simpa [recKeys] using haux stage2 []
  intro rs
  induction rs with
  | nil =>
      intro acc
      simp [firstOccurFrom]
  | cons r rest ih =>
      intro acc
      rw [List.foldl_cons, List.map_cons, List.map_cons, List.flatten_cons,
        firstOccurFrom_append]
      have h1 : recKeys (addPositions ltm acc (parseRankingFromText r.ranking)) =
          recKeys acc ++ firstOccurFrom (recKeys acc)
            (assignedOf ltm (parseRankingFromText r.ranking)) := by
        unfold addPositions assignedOf
        exact posStep_foldl_keys ltm _ acc
      rw [ih _, h1]
      simp [List.append_assoc]

theorem modelPositions_values_ne_nil (stage2 : List Stage2Result)
    (ltm : List (String × String)) :
    ∀ p ∈ modelPositions stage2 ltm, p.2 ≠ [] := by
  unfold modelPositions
  have hpairs : ∀ (pairs : List (String × Nat)) (acc : List (String × List Nat)),
      (∀ p ∈ acc, p.2 ≠ ([] : List Nat)) →
      ∀ p ∈ pairs.foldl (posStep ltm) acc, p.2 ≠ [] := by
    intro pairs
    induction pairs with
    | nil => intro acc hacc p hp; exact hacc p hp
    | cons lp rest ih =>
        intro acc hacc p hp
        rw [List.foldl_cons] at hp
        refine ih _ ?_ p hp
        intro q hq
        cases h1 : recGet? ltm lp.1 with
        | none =>
            rw [posStep_of_none ltm acc lp h1] at hq
            exact hacc q hq
        | some mn =>
            cases h2 : recGet? acc mn with
            | some ps =>
                rw [posStep_of_present ltm acc lp mn ps h1 h2] at hq
                rcases recSet_mem acc mn (ps ++ [lp.2]) q hq with hh | hh
                · exact hacc q hh
                · rw [hh]
                  simp
            | none =>
                rw [posStep_of_fresh ltm acc lp mn h1 h2] at hq
                rcases List.mem_append.mp hq with hh | hh
                · exact hacc q hh
                · simp at hh
                  rw [hh]
                  simp
  have hrank : ∀ (rs : List Stage2Result) (acc : List (String × List Nat)),
      (∀ p ∈ acc, p.2 ≠ ([] : List Nat)) →
      ∀ p ∈ rs.foldl
        (fun a r => addPositions ltm a (parseRankingFromText r.ranking)) acc,
        p.2 ≠ [] := by
    intro rs
    induction rs with
    | nil => intro acc hacc p hp; exact hacc p hp
    | cons r rest ih =>
        intro acc hacc p hp
        rw [List.foldl_cons] at hp
        exact ih _ (hpairs _ acc hacc) p hp
  exact hrank stage2 [] (by simp)

theorem aggEntries_map_model (l : List (String × List Nat))
    (h : ∀ p ∈ l, p.2 ≠ []) :
    (aggEntries l).map (fun e => e.model) = recKeys l := by
  induction l with
  | nil => rfl
  | cons p ps ih =>
      have hl : 0 < p.2.length :=
        List.length_pos.mpr (h p (List.mem_cons_self p ps))
      have hstep : aggEntries (p :: ps) =
          ⟨p.1, round2 ((p.2.sum : ℚ) / (p.2.length : ℚ)), p.2.length⟩ ::
            aggEntries ps := by
        unfold aggEntries
        rw [List.filterMap_cons, if_pos hl]
      rw [hstep, List.map_cons, ih (fun q hq => h q (List.mem_cons_of_mem p hq))]
      rfl

theorem filter_orderedInsert_of_eq (q : ℚ) (a : AggregateRanking)
    (h : a.average_rank = q) :
    ∀ s, (List.orderedInsert rankLE a s).filter (fun e => e.average_rank = q) =
      a :: s.filter (fun e => e.average_rank = q) := by
  intro s
  induction s with
  | nil => simp [List.orderedInsert, List.filter_cons, h]
  | cons x xs ih =>
      rw [List.orderedInsert]
      by_cases hr : rankLE a x
      · rw [if_pos hr]
        simp [List.filter_cons, h]
      · rw [if_neg hr]
        have hx : ¬ x.average_rank = q := by
          intro he
          exact hr (by unfold rankLE; rw [h, he])
        simp only [List.filter_cons, hx, decide_eq_true_eq, if_false]
        simpa [List.filter_cons, hx] using ih

theorem filter_orderedInsert_of_ne (q : ℚ) (a : AggregateRanking)
    (h : ¬ a.average_rank = q) :
    ∀ s, (List.orderedInsert rankLE a s).filter (fun e => e.average_rank = q) =
      s.filter (fun e => e.average_rank = q) := by
  intro s
  induction s with
  | nil => simp [List.orderedInsert, List.filter_cons, h]
  | cons x xs ih =>
      rw [List.orderedInsert]
      by_cases hr : rankLE a x
      · rw [if_pos hr]
        simp [List.filter_cons, h]
      · rw [if_neg hr]
        by_cases hx : x.average_rank = q
        · simp only [List.filter_cons, hx]
          simpa [List.filter_cons, hx] using ih
        · simp only [List.filter_cons, hx]
          simpa [List.filter_cons, hx] using ih

/-- Stability of the sort: the entries holding any fixed `average_rank`
value appear in the sorted output exactly as they appear in the input, in
order — so equal-average entries keep their original relative order. -/
theorem filter_insertionSort (q : ℚ) :
    ∀ l : List AggregateRanking,
      (List.insertionSort rankLE l).filter (fun e => e.average_rank = q) =
        l.filter (fun e => e.average_rank = q) := by
  intro l
  induction l with
  | nil => rfl
  | cons a l ih =>
      rw [List.insertionSort]
      by_cases ha : a.average_rank = q
      · rw [filter_orderedInsert_of_eq q a ha _, ih, List.filter_cons]
        simp [ha]
      · rw [filter_orderedInsert_of_ne q a ha _, ih, List.filter_cons]
        simp [ha]

/-- C3: for every list of Stage-2 results and label-to-model map, the
aggregate list is sorted ascending by `average_rank`; a model appears in it
exactly when it received at least one position across the parsed rankings
(models in no successfully parsed ranking are omitted); each entry's
`rankings_count` is the number of positions recorded for its model and its
`average_rank` is the mean of those 1-based positions rounded to two
decimals. Ties keep first-seen order, universally: for every average value,
the output's entries holding it are exactly the pre-sort aggregate list's
entries holding it, in the same order (so the sort never swaps
equal-average entries), and the pre-sort aggregate list carries one entry
per position-receiving model in first-seen order (the order each model was
first assigned a position). On the concrete instance with rankings
`[[C, A], [A, C]]` and labels A → modelX, C → modelY: modelX has positions
`[2, 1]` and modelY `[1, 2]`, both average 1.5, and the tie keeps
first-seen order (modelY first, since label C was seen at position 1 of
the first ranking). -/
theorem C3_ok (stage2 : List Stage2Result) (ltm : List (String × String)) :
    List.Sorted rankLE (calculateAggregateRankings stage2 ltm) ∧
    (∀ m : String,
      (∃ e ∈ calculateAggregateRankings stage2 ltm, e.model = m) ↔
        positionsOfModel (stage2.map fun r => parseRankingFromText r.ranking)
          ltm m ≠ []) ∧
    (∀ e ∈ calculateAggregateRankings stage2 ltm,
      e.rankings_count =
        (positionsOfModel (stage2.map fun r => parseRankingFromText r.ranking)
          ltm e.model).length ∧
      e.average_rank = round2
        (((positionsOfModel (stage2.map fun r => parseRankingFromText r.ranking)
            ltm e.model).sum : ℚ) /
          ((positionsOfModel (stage2.map fun r => parseRankingFromText r.ranking)
            ltm e.model).length : ℚ))) ∧
    (∀ q : ℚ,
      (calculateAggregateRankings stage2 ltm).filter
          (fun e => e.average_rank = q) =
        (aggEntries (modelPositions stage2 ltm)).filter
          (fun e => e.average_rank = q)) ∧
    ((aggEntries (modelPositions stage2 ltm)).map (fun e => e.model) =
      firstSeenModels (stage2.map fun r => parseRankingFromText r.ranking) ltm) ∧
    (positionsOfModel
        [parseRankingFromText "FINAL RANKING:\n1. Response C\n2. Response A",
         parseRankingFromText "FINAL RANKING:\n1. Response A\n2. Response C"]
        [("Response A", "modelX"), ("Response C", "modelY")] "modelX"
      = [2, 1] ∧
     positionsOfModel
        [parseRankingFromText "FINAL RANKING:\n1. Response C\n2. Response A",
         parseRankingFromText "FINAL RANKING:\n1. Response A\n2. Response C"]
        [("Response A", "modelX"), ("Response C", "modelY")] "modelY"
      = [1, 2] ∧
     calculateAggregateRankings
        [⟨"model1", "FINAL RANKING:\n1. Response C\n2. Response A", []⟩,
         ⟨"model2", "FINAL RANKING:\n1. Response A\n2. Response C", []⟩]
        [("Response A", "modelX"), ("Response C", "modelY")] =
        [⟨"modelY", 3/2, 2⟩, ⟨"modelX", 3/2, 2⟩]) := by
  refine ⟨List.sorted_insertionSort rankLE _, ?_, ?_, ?_, ?_, ?_, ?_, ?_⟩
  · intro m
    constructor
    · rintro ⟨e, he, hm⟩ hnil
      rw [mem_calc_iff, mem_aggEntries_iff] at he
      obtain ⟨p, hp, hl, hee⟩ := he
      have hget := recGet?_of_mem _ p (nodup_recKeys_modelPositions stage2 ltm) hp
      have hspec := (modelPositions_spec stage2 ltm p.1).2
      rw [hget] at hspec
      simp only [optList, Option.getD_some] at hspec
      have hpm : p.1 = m := by rw [hee] at hm; exact hm
      rw [hpm] at hspec
      rw [hnil] at hspec
      rw [hspec] at hl
      simp at hl
    · intro hne
      have hspec := modelPositions_spec stage2 ltm m
      have hnone : recGet? (modelPositions stage2 ltm) m ≠ none := by
        intro h0
        exact hne (hspec.1.mp h0)
      cases hf : (modelPositions stage2 ltm).find? (fun p => p.1 = m) with
      | none =>
          exact absurd (by unfold recGet?; rw [hf]; rfl) hnone
      | some q =>
          have hqmem := List.mem_of_find?_eq_some hf
          have hqm : q.1 = m := by simpa using List.find?_some hf
          have hqv : recGet? (modelPositions stage2 ltm) m = some q.2 := by
            unfold recGet?
            rw [hf]
            rfl
          have hval : q.2 = positionsOfModel
              (stage2.map fun r => parseRankingFromText r.ranking) ltm m := by
            have h2 := hspec.2
            rw [hqv] at h2
            simpa [optList] using h2
          have hlen : 0 < q.2.length := by
            rw [hval]
            exact List.length_pos.mpr hne
          refine ⟨⟨q.1, round2 ((q.2.sum : ℚ) / (q.2.length : ℚ)), q.2.length⟩,
            ?_, hqm⟩
          rw [mem_calc_iff, mem_aggEntries_iff]
          exact ⟨q, hqmem, hlen, rfl⟩
  · intro e he
    rw [mem_calc_iff, mem_aggEntries_iff] at he
    obtain ⟨p, hp, hl, hee⟩ := he
    have hget := recGet?_of_mem _ p (nodup_recKeys_modelPositions stage2 ltm) hp
    have hspec := (modelPositions_spec stage2 ltm p.1).2
    rw [hget] at hspec
    simp only [optList, Option.getD_some] at hspec
    rw [hee]
    simp only []
    rw [← hspec]
    exact ⟨rfl, rfl⟩
  · intro q
    unfold calculateAggregateRankings
    exact filter_insertionSort q (aggEntries (modelPositions stage2 ltm))
  · rw [aggEntries_map_model _ (modelPositions_values_ne_nil stage2 ltm)]
    exact modelPositions_keys stage2 ltm
  · decide
  · decide
  · have hmp : modelPositions
        [⟨"model1", "FINAL RANKING:\n1. Response C\n2. Response A", []⟩,
         ⟨"model2", "FINAL RANKING:\n1. Response A\n2. Response C", []⟩]
        [("Response A", "modelX"), ("Response C", "modelY")] =
        [("modelY", [1, 2]), ("modelX", [2, 1])] := by decide
    have hr : round2 ((3 : ℚ) / 2) = 3 / 2 := by
      unfold round2 jsRound
      have h1 : ((3 : ℚ) / 2 * 100 + 1 / 2) = 301 / 2 := by ring
      rw [h1]
      have h2 : ⌊(301 : ℚ) / 2⌋ = 150 := by
        rw [Int.floor_eq_iff]
        constructor <;> norm_num
      rw [h2]
      norm_num
    have hagg : aggEntries [("modelY", [1, 2]), ("modelX", [2, 1])] =
        [⟨"modelY", 3/2, 2⟩, ⟨"modelX", 3/2, 2⟩] := by
      simp [aggEntries, List.filterMap_cons]
      norm_num [hr]
    unfold calculateAggregateRankings
    rw [hmp, hagg]
    simp [List.insertionSort, List.orderedInsert, rankLE]

/-- C3, witness: on the concrete two-ranking instance, modelX received
positions, so it appears in the aggregate output. -/
theorem C3_ok_witness :
    ∃ e ∈ calculateAggregateRankings
      [⟨"model1", "FINAL RANKING:\n1. Response C\n2. Response A", []⟩,
       ⟨"model2", "FINAL RANKING:\n1. Response A\n2. Response C", []⟩]
      [("Response A", "modelX"), ("Response C", "modelY")],
      e.model = "modelX" :=
  ((C3_ok
      [⟨"model1", "FINAL RANKING:\n1. Response C\n2. Response A", []⟩,
       ⟨"model2", "FINAL RANKING:\n1. Response A\n2. Response C", []⟩]
      [("Response A", "modelX"), ("Response C", "modelY")]).2.1 "modelX").mpr
    (by decide)

/-! ## Council pipeline (council.ts, openrouter.ts)

Each stage's model calls are represented by an oracle
`String → Option ModelResponse` giving the settled outcome of that stage's
call to each model (`none` = the resilient call layer returned `null`);
one oracle per prompt-distinct call site (Stage 1, Stage 2, Stage 3). -/

structure ModelResponse where
  content : Option String
deriving DecidableEq

structure Stage1Result where
  model : String
  response : String
deriving DecidableEq

structure Stage3Result where
  model : String
  response : String
deriving DecidableEq

structure CouncilMetadata where
  label_to_model : List (String × String)
  aggregate_rankings : List AggregateRanking
deriving DecidableEq

/-- `queryModelsParallel` (openrouter.ts): all models queried, results
collected into an object keyed by model in configuration-index order
(`result[models[i]] = responses[i]`). -/
def queryModelsParallel (models : List String)
    (query : String → Option ModelResponse) :
    List (String × Option ModelResponse) :=
  models.foldl (fun acc model => recSet acc model (query model)) []

/-- `stage1CollectResponses` (council.ts): filter out `null` responses and
map to `{model, response}` with `response.content || ''`. -/
def stage1CollectResponses (models : List String)
    (query : String → Option ModelResponse) : List Stage1Result :=
  (queryModelsParallel models query).filterMap
    (fun p => p.2.map (fun resp => (⟨p.1, resp.content.getD ""⟩ : Stage1Result)))

/-- The anonymized label for Stage-1 index `i`:
`Response ${String.fromCharCode(65 + i)}`. -/
def labelFor (i : Nat) : String := String.mk (respLit ++ [Char.ofNat (65 + i)])

/-- The `labelToModel` object built by `stage2CollectRankings`. -/
def labelToModelOf (stage1Results : List Stage1Result) :
    List (String × String) :=
  ((List.range stage1Results.length).zip stage1Results).foldl
    (fun acc p => recSet acc (labelFor p.1) p.2.model) []

/-- `stage2CollectRankings` (council.ts): query all models with the ranking
prompt, keep non-null responses as Stage-2 results (text plus parsed
ranking), and return them with the label-to-model map. -/
def stage2CollectRankings (models : List String)
    (query2 : String → Option ModelResponse)
    (stage1Results : List Stage1Result) :
    List Stage2Result × List (String × String) :=
  ((queryModelsParallel models query2).filterMap
    (fun p => p.2.map (fun resp =>
      (⟨p.1, resp.content.getD "",
        parseRankingFromText (resp.content.getD "")⟩ : Stage2Result))),
   labelToModelOf stage1Results)

/-- The fixed-format Stage-3 error response naming the chairman. -/
def errSynthesis (chairman : String) : String :=
  "Error: Unable to generate final synthesis. Chairman model (" ++ chairman ++
    ") and all fallback models failed. Please check your API key and model availability."

/-- The sequential fallback loop of `stage3SynthesizeFinal`: try each model
in order, return the first non-null response. -/
def firstSuccess : List String → (String → Option ModelResponse) →
    Option (String × ModelResponse)
  | [], _ => none
  | m :: ms, query =>
      match query m with
      | some r => some (m, r)
      | none => firstSuccess ms query

/-- `stage3SynthesizeFinal` (council.ts): query the chairman; on failure try
each remaining configured model in configuration order, returning the first
success; if all fail, return the fixed-format error synthesis attributed to
the chairman. -/
def stage3SynthesizeFinal (models : List String) (chairman : String)
    (query3 : String → Option ModelResponse) : Stage3Result :=
  match query3 chairman with
  | some r => ⟨chairman, r.content.getD ""⟩
  | none =>
      match firstSuccess (models.filter (fun m => m ≠ chairman)) query3 with
      | some (m, r) => ⟨m, r.content.getD ""⟩
      | none => ⟨chairman, errSynthesis chairman⟩

structure CouncilOutput where
  stage1 : List Stage1Result
  stage2 : List Stage2Result
  stage3 : Stage3Result
  metadata : CouncilMetadata
deriving DecidableEq

/-- `runFullCouncil` (council.ts): Stage 1; if no model responded, the
errored tuple with a placeholder synthesis and empty metadata; otherwise
Stage 2, aggregation, Stage 3, and the metadata. -/
def runFullCouncil (models : List String) (chairman : String)
    (query1 query2 query3 : String → Option ModelResponse) : CouncilOutput :=
  let stage1Results := stage1CollectResponses models query1
  if stage1Results.length = 0 then
    ⟨[], [], ⟨"error", "All models failed to respond. Please try again."⟩,
      ⟨[], []⟩⟩
  else
    let s2 := stage2CollectRankings models query2 stage1Results
    ⟨stage1Results, s2.1, stage3SynthesizeFinal models chairman query3,
      ⟨s2.2, calculateAggregateRankings s2.1 s2.2⟩⟩

theorem recSet_fresh {α : Type} (m : List (String × α)) (k : String) (v : α)
    (h : k ∉ recKeys m) : recSet m k v = m ++ [(k, v)] := by
  unfold recSet
  rw [if_neg]
  intro hc
  exact h ((recAny_iff m k).mp hc)

theorem queryModelsParallel_eq (models : List String)
    (query : String → Option ModelResponse) (h : models.Nodup) :
    queryModelsParallel models query = models.map (fun m => (m, query m)) := by
  unfold queryModelsParallel
  suffices haux : ∀ (ms : List String) (acc : List (String × Option ModelResponse)),
      ms.Nodup → (∀ m ∈ ms, m ∉ recKeys acc) →
      ms.foldl (fun acc2 model => recSet acc2 model (query model)) acc =
        acc ++ ms.map (fun m => (m, query m)) by
    simpa using haux models [] h (by simp [recKeys])
  intro ms
  induction ms with
  | nil => intro acc _ _; simp
  | cons m rest ih =>
      intro acc hnd hfresh
      rw [List.foldl_cons, recSet_fresh acc m _ (hfresh m (List.mem_cons_self m rest))]
      rw [ih _ (List.nodup_cons.mp hnd).2 ?_]
      · simp
      · intro x hx
        have hxm : x ≠ m := by
          intro he
          subst he
          exact (List.nodup_cons.mp hnd).1 hx
        simp only [recKeys, List.map_append]
        rw [List.mem_append]
        rintro (h1 | h1)
        · exact hfresh x (List.mem_cons_of_mem m hx) h1
        · simp at h1
          exact hxm h1

theorem stage1CollectResponses_eq (models : List String)
    (query : String → Option ModelResponse) (h : models.Nodup) :
    stage1CollectResponses models query =
      models.filterMap (fun m => (query m).map
        (fun r => (⟨m, r.content.getD ""⟩ : Stage1Result))) := by
  unfold stage1CollectResponses
  rw [queryModelsParallel_eq models query h, List.filterMap_map]
  rfl

theorem filterMap_model_eq_filter (query : String → Option ModelResponse) :
    ∀ l : List String,
      (l.filterMap (fun m => (query m).map
        (fun r => (⟨m, r.content.getD ""⟩ : Stage1Result)))).map (fun r => r.model)
        = l.filter (fun m => (query m).isSome) := by
  intro l
  induction l with
  | nil => rfl
  | cons m rest ih =>
      simp only [List.filterMap_cons, List.filter_cons]
      cases hq : query m with
      | none => simpa [hq] using ih
      | some r => simpa [hq] using ih

theorem stage1_map_model (models : List String)
    (query : String → Option ModelResponse) (h : models.Nodup) :
    (stage1CollectResponses models query).map (fun r => r.model) =
      models.filter (fun m => (query m).isSome) := by
  rw [stage1CollectResponses_eq models query h]
  exact filterMap_model_eq_filter query models

/-- C4: under the configured (duplicate-free) council model list, the
surviving Stage-1 results are exactly the models whose call succeeded, in
original configuration order (never completion order, which the by-index
result assembly of `queryModelsParallel` erases); in particular, if all N
calls succeed, Stage 1 returns exactly N answers in configuration order. -/
theorem C4_ok (models : List String)
    (query : String → Option ModelResponse) (h : models.Nodup) :
    (stage1CollectResponses models query).map (fun r => r.model) =
      models.filter (fun m => (query m).isSome) ∧
    ((∀ m ∈ models, (query m).isSome) →
      (stage1CollectResponses models query).map (fun r => r.model) = models ∧
      (stage1CollectResponses models query).length = models.length) := by
  refine ⟨stage1_map_model models query h, ?_⟩
  intro hall
  have h1 : models.filter (fun m => (query m).isSome) = models :=
    List.filter_eq_self.mpr (fun m hm => hall m hm)
  constructor
  · rw [stage1_map_model models query h, h1]
  · have h2 := congrArg List.length (stage1_map_model models query h)
    rw [h1] at h2
    simpa using h2

/-- C4, witness: two distinct models, both calls succeeding. -/
theorem C4_ok_witness :
    (stage1CollectResponses ["model/a", "model/b"]
      (fun _ => some ⟨some "ok"⟩)).map (fun r => r.model) =
        ["model/a", "model/b"] ∧
    (stage1CollectResponses ["model/a", "model/b"]
      (fun _ => some ⟨some "ok"⟩)).length = 2 :=
  (C4_ok ["model/a", "model/b"] (fun _ => some ⟨some "ok"⟩)
    (by decide)).2 (fun _ _ => rfl)

theorem queryModelsParallel_entry (models : List String)
    (query : String → Option ModelResponse) :
    ∀ p ∈ queryModelsParallel models query, p.1 ∈ models ∧ p.2 = query p.1 := by
  unfold queryModelsParallel
  suffices haux : ∀ (ms : List String) (acc : List (String × Option ModelResponse)),
      (∀ m ∈ ms, m ∈ models) →
      (∀ p ∈ acc, p.1 ∈ models ∧ p.2 = query p.1) →
      ∀ p ∈ ms.foldl (fun acc2 model => recSet acc2 model (query model)) acc,
        p.1 ∈ models ∧ p.2 = query p.1 by
    exact haux models [] (fun m hm => hm) (by simp)
  intro ms
  induction ms with
  | nil => intro acc _ hacc p hp; exact hacc p hp
  | cons m rest ih =>
      intro acc hsub hacc p hp
      rw [List.foldl_cons] at hp
      refine ih _ (fun x hx => hsub x (List.mem_cons_of_mem m hx)) ?_ p hp
      intro q hq
      rcases recSet_mem acc m (query m) q hq with h1 | h1
      · exact hacc q h1
      · rw [h1]
        exact ⟨hsub m (List.mem_cons_self m rest), rfl⟩

theorem stage1_all_none (models : List String)
    (query : String → Option ModelResponse)
    (hall : ∀ m ∈ models, query m = none) :
    stage1CollectResponses models query = [] := by
  unfold stage1CollectResponses
  rw [List.filterMap_eq_nil_iff]
  intro p hp
  obtain ⟨hmem, hval⟩ := queryModelsParallel_entry models query p hp
  rw [hval, hall p.1 hmem]
  rfl

/-- C5: if every Stage-1 call fails, `runFullCouncil` returns the errored
tuple — empty Stage-1 and Stage-2 results, empty label-to-model and
aggregate metadata, and the fixed placeholder synthesis — regardless of the
Stage-2 and Stage-3 oracles (so Stages 2 and 3 are never consulted); if at
least one Stage-1 call succeeds, the round proceeds: the output carries the
surviving Stage-1 results (the successful models, in configuration order)
and the Stage-2 / Stage-3 / metadata components computed from them. -/
theorem C5_ok (models : List String) (chairman : String)
    (q1 : String → Option ModelResponse) :
    ((∀ m ∈ models, q1 m = none) →
      ∀ q2 q3, runFullCouncil models chairman q1 q2 q3 =
        ⟨[], [],
          ⟨"error", "All models failed to respond. Please try again."⟩,
          ⟨[], []⟩⟩) ∧
    (models.Nodup → (∃ m ∈ models, (q1 m).isSome) →
      ∀ q2 q3,
        (runFullCouncil models chairman q1 q2 q3).stage1 =
          stage1CollectResponses models q1 ∧
        ((runFullCouncil models chairman q1 q2 q3).stage1).map (fun r => r.model)
          = models.filter (fun m => (q1 m).isSome) ∧
        (runFullCouncil models chairman q1 q2 q3).stage2 =
          (stage2CollectRankings models q2 (stage1CollectResponses models q1)).1 ∧
        (runFullCouncil models chairman q1 q2 q3).stage3 =
          stage3SynthesizeFinal models chairman q3 ∧
        (runFullCouncil models chairman q1 q2 q3).metadata =
          ⟨(stage2CollectRankings models q2 (stage1CollectResponses models q1)).2,
            calculateAggregateRankings
              (stage2CollectRankings models q2 (stage1CollectResponses models q1)).1
              (stage2CollectRankings models q2 (stage1CollectResponses models q1)).2⟩) := by
  constructor
  · intro hall q2 q3
    unfold runFullCouncil
    rw [stage1_all_none models q1 hall]
    rfl
  · intro hnd hex q2 q3
    obtain ⟨m, hm, hsome⟩ := hex
    have hmem : m ∈ models.filter (fun x => (q1 x).isSome) :=
      List.mem_filter.mpr ⟨hm, hsome⟩
    have hmap := stage1_map_model models q1 hnd
    have hne : stage1CollectResponses models q1 ≠ [] := by
      intro h0
      rw [h0] at hmap
      rw [← hmap] at hmem
      cases hmem
    have hlen : ¬ (stage1CollectResponses models q1).length = 0 := by
      intro h0
      exact hne (List.length_eq_zero.mp h0)
    have hrun : runFullCouncil models chairman q1 q2 q3 =
        ⟨stage1CollectResponses models q1,
          (stage2CollectRankings models q2 (stage1CollectResponses models q1)).1,
          stage3SynthesizeFinal models chairman q3,
          ⟨(stage2CollectRankings models q2 (stage1CollectResponses models q1)).2,
            calculateAggregateRankings
              (stage2CollectRankings models q2 (stage1CollectResponses models q1)).1
              (stage2CollectRankings models q2 (stage1CollectResponses models q1)).2⟩⟩ := by
      unfold runFullCouncil
      dsimp only
      rw [if_neg hlen]
    rw [hrun]
    exact ⟨rfl, hmap, rfl, rfl, rfl⟩

/-- C5, witness: both conjuncts instantiated — a round where every Stage-1
call fails yields the errored tuple, and a round with one survivor carries
it through. -/
theorem C5_ok_witness :
    runFullCouncil ["model/a", "model/b"] "chair"
        (fun _ => none) (fun _ => none) (fun _ => none) =
      ⟨[], [], ⟨"error", "All models failed to respond. Please try again."⟩,
        ⟨[], []⟩⟩ ∧
    (runFullCouncil ["model/a", "model/b"] "chair"
        (fun m => if m = "model/a" then some ⟨some "ok"⟩ else none)
        (fun _ => none) (fun _ => none)).stage1 =
      stage1CollectResponses ["model/a", "model/b"]
        (fun m => if m = "model/a" then some ⟨some "ok"⟩ else none) :=
  ⟨(C5_ok ["model/a", "model/b"] "chair" (fun _ => none)).1
      (fun _ _ => rfl) (fun _ => none) (fun _ => none),
   ((C5_ok ["model/a", "model/b"] "chair"
      (fun m => if m = "model/a" then some ⟨some "ok"⟩ else none)).2
      (by decide) ⟨"model/a", by decide, by decide⟩
      (fun _ => none) (fun _ => none)).1⟩

theorem firstSuccess_all_none (l : List String)
    (query : String → Option ModelResponse)
    (h : ∀ x ∈ l, query x = none) : firstSuccess l query = none := by
  induction l with
  | nil => rfl
  | cons m ms ih =>
      unfold firstSuccess
      rw [h m (List.mem_cons_self m ms)]
      exact ih (fun x hx => h x (List.mem_cons_of_mem m hx))

theorem firstSuccess_first (pre : List String) (m : String) (post : List String)
    (query : String → Option ModelResponse) (r : ModelResponse)
    (hpre : ∀ x ∈ pre, query x = none) (hm : query m = some r) :
    firstSuccess (pre ++ m :: post) query = some (m, r) := by
  induction pre with
  | nil =>
      rw [List.nil_append]
      unfold firstSuccess
      rw [hm]
  | cons x xs ih =>
      rw [List.cons_append]
      unfold firstSuccess
      rw [hpre x (List.mem_cons_self x xs)]
      exact ih (fun y hy => hpre y (List.mem_cons_of_mem x hy))

/-- C6: Stage-3 control flow. If the chairman call succeeds, its response is
returned attributed to the chairman. If it fails, the identical prompt is
tried against the remaining configured models in original configuration
order (the chairman filtered out), and the first success is returned
immediately, attributed to that fallback model. If every candidate fails,
the result is the fixed-format error synthesis naming the chairman — a
value, not an exception (the embedding is a total function). -/
theorem C6_ok (models : List String) (chairman : String)
    (q3 : String → Option ModelResponse) :
    (∀ r, q3 chairman = some r →
      stage3SynthesizeFinal models chairman q3 =
        ⟨chairman, r.content.getD ""⟩) ∧
    (q3 chairman = none →
      ∀ pre m post, models.filter (fun x => x ≠ chairman) = pre ++ m :: post →
        (∀ x ∈ pre, q3 x = none) → ∀ r, q3 m = some r →
          stage3SynthesizeFinal models chairman q3 = ⟨m, r.content.getD ""⟩) ∧
    (q3 chairman = none →
      (∀ x ∈ models.filter (fun x => x ≠ chairman), q3 x = none) →
      stage3SynthesizeFinal models chairman q3 =
        ⟨chairman, errSynthesis chairman⟩) := by
  refine ⟨?_, ?_, ?_⟩
  · intro r hr
    unfold stage3SynthesizeFinal
    rw [hr]
  · intro hc pre m post hsplit hpre r hm
    unfold stage3SynthesizeFinal
    rw [hc, hsplit, firstSuccess_first pre m post q3 r hpre hm]
  · intro hc hall
    unfold stage3SynthesizeFinal
    rw [hc, firstSuccess_all_none _ q3 hall]

/-- C6, witness: chairman and the first fallback fail, the second fallback
succeeds and is returned as the synthesis author. -/
theorem C6_ok_witness :
    stage3SynthesizeFinal ["chair", "model/f1", "model/f2"] "chair"
      (fun m => if m = "model/f2" then some ⟨some "S"⟩ else none) =
      ⟨"model/f2", "S"⟩ :=
  (C6_ok ["chair", "model/f1", "model/f2"] "chair"
    (fun m => if m = "model/f2" then some ⟨some "S"⟩ else none)).2.1
    (by decide) ["model/f1"] "model/f2" [] (by decide)
    (by decide) ⟨some "S"⟩ (by decide)

/-! ## Retry with exponential backoff (retry.ts, withRetry) -/

/-- The settled outcome of one attempt of the wrapped operation: success
with a value, or a thrown error already classified by `isRetryableError`
as retryable or terminal. -/
inductive AttemptResult (T : Type) where
  | ok (v : T)
  | err (retryable : Bool)

/-- The attempt loop of `withRetry`, at attempt number `attempt` with
`remaining = maxRetries - attempt` retries left and current `delay`.
Returns the result (`none` = the source's `return null`), the list of
sleeps performed (`min delay maxDelay` before each retry; `delay` itself
doubles unboundedly), and the breaker after the loop's own
`recordSuccess` / `recordFailure` call (`tFail` stamps a recorded
failure). The breaker is only touched at the exits, as in the source. -/
def retryLoop {T : Type} (f : Nat → AttemptResult T) (maxDelay mult tFail : Nat) :
    Nat → Nat → Nat → CircuitBreaker → Option T × List Nat × CircuitBreaker
  | attempt, 0, _, cb =>
      match f attempt with
      | .ok v => (some v, [], recordSuccess cb)
      | .err _ => (none, [], recordFailure tFail cb)
  | attempt, rem + 1, delay, cb =>
      match f attempt with
      | .ok v => (some v, [], recordSuccess cb)
      | .err r =>
          if r = false then (none, [], recordFailure tFail cb)
          else
            let res := retryLoop f maxDelay mult tFail (attempt + 1) rem
              (delay * mult) cb
            (res.1, min delay maxDelay :: res.2.1, res.2.2)

/-- `withRetry` (retry.ts): consult the circuit breaker — when it refuses,
return `null` without invoking the operation — then run the attempt loop.
The embedding is a total function returning `Option`: no error escapes
this boundary. -/
def withRetry {T : Type} (f : Nat → AttemptResult T)
    (maxRetries initialDelay maxDelay mult : Nat) (now tFail : Nat)
    (cb : CircuitBreaker) : Option T × List Nat × CircuitBreaker :=
  let c := canExecute now cb
  if c.1 = false then (none, [], c.2)
  else retryLoop f maxDelay mult tFail 0 maxRetries initialDelay c.2

theorem retryLoop_sleeps {T : Type} (f : Nat → AttemptResult T)
    (maxDelay mult tFail : Nat) :
    ∀ remaining attempt delay cb,
      (retryLoop f maxDelay mult tFail attempt remaining delay cb).2.1 =
        (List.range
            (retryLoop f maxDelay mult tFail attempt remaining delay cb).2.1.length).map
          (fun i => min (delay * mult ^ i) maxDelay) ∧
      (retryLoop f maxDelay mult tFail attempt remaining delay cb).2.1.length ≤
        remaining := by
  intro remaining
  induction remaining with
  | zero =>
      intro attempt delay cb
      unfold retryLoop
      match f attempt with
      | .ok v => simp
      | .err r => simp
  | succ rem ih =>
      intro attempt delay cb
      unfold retryLoop
      match f attempt with
      | .ok v => simp
      | .err r =>
          cases r with
          | false => simp
          | true =>
              simp only [Bool.true_eq_false, if_false]
              obtain ⟨ihshape, ihlen⟩ := ih (attempt + 1) (delay * mult) cb
              constructor
              · rw [List.length_cons]
                rw [List.range_succ_eq_map, List.map_cons, List.map_map]
                congr 1
                · simp
                · conv_lhs => rw [ihshape]
                  apply List.map_congr_left
                  intro i _
                  simp only [Function.comp]
                  congr 1
                  rw [pow_succ]
                  ring
              · rw [List.length_cons]
                omega

theorem retryLoop_exhaust {T : Type} (f : Nat → AttemptResult T)
    (maxDelay mult tFail : Nat) (hf : ∀ i, f i = .err true) :
    ∀ remaining attempt delay cb,
      (retryLoop f maxDelay mult tFail attempt remaining delay cb).1 = none ∧
      (retryLoop f maxDelay mult tFail attempt remaining delay cb).2.1.length =
        remaining ∧
      (retryLoop f maxDelay mult tFail attempt remaining delay cb).2.2 =
        recordFailure tFail cb := by
  intro remaining
  induction remaining with
  | zero =>
      intro attempt delay cb
      unfold retryLoop
      rw [hf attempt]
      simp
  | succ rem ih =>
      intro attempt delay cb
      unfold retryLoop
      rw [hf attempt]
      simp only [Bool.true_eq_false, if_false]
      obtain ⟨ih1, ih2, ih3⟩ := ih (attempt + 1) (delay * mult) cb
      exact ⟨ih1, by rw [List.length_cons, ih2], ih3⟩

/-- C7: when the circuit breaker admits the call, the waits performed by
`withRetry` are exactly `min(initialDelay * mult^i, maxDelay)` for
`i = 0, 1, ...` — `initialDelay` (default 1 s) before the second attempt,
then doubling (default multiplier 2) each subsequent attempt, capped at
`maxDelay` — and at most `maxRetries` retries follow the first attempt.
When every attempt fails with a retryable error, the result is Failure
(`none`; never an exception — the embedding is a total function), exactly
`maxRetries` retries are performed, and exactly one circuit-breaker failure
is recorded: the final breaker is a single `recordFailure` applied to the
post-check breaker, whose failure counter is one higher. -/
theorem C7_ok {T : Type} (f : Nat → AttemptResult T)
    (maxRetries initialDelay maxDelay mult now tFail : Nat)
    (cb : CircuitBreaker) (hcan : (canExecute now cb).1 = true) :
    ((withRetry f maxRetries initialDelay maxDelay mult now tFail cb).2.1 =
      (List.range
        (withRetry f maxRetries initialDelay maxDelay mult now tFail cb).2.1.length).map
        (fun i => min (initialDelay * mult ^ i) maxDelay) ∧
      (withRetry f maxRetries initialDelay maxDelay mult now tFail cb).2.1.length ≤
        maxRetries) ∧
    ((∀ i, f i = .err true) →
      (withRetry f maxRetries initialDelay maxDelay mult now tFail cb).1 = none ∧
      (withRetry f maxRetries initialDelay maxDelay mult now tFail cb).2.1.length =
        maxRetries ∧
      (withRetry f maxRetries initialDelay maxDelay mult now tFail cb).2.2 =
        recordFailure tFail (canExecute now cb).2 ∧
      (withRetry f maxRetries initialDelay maxDelay mult now tFail cb).2.2.failures =
        (canExecute now cb).2.failures + 1) := by
  have hw : withRetry f maxRetries initialDelay maxDelay mult now tFail cb =
      retryLoop f maxDelay mult tFail 0 maxRetries initialDelay
        (canExecute now cb).2 := by
    unfold withRetry
    dsimp only
    rw [hcan]
    simp
  rw [hw]
  constructor
  · exact retryLoop_sleeps f maxDelay mult tFail maxRetries 0 initialDelay _
  · intro hf
    obtain ⟨h1, h2, h3⟩ :=
      retryLoop_exhaust f maxDelay mult tFail hf maxRetries 0 initialDelay
        (canExecute now cb).2
    exact ⟨h1, h2, h3, by rw [h3, recordFailure_failures]⟩

/-- C7, witness: the default configuration (3 retries, 1 s initial delay,
doubling, 30 s cap) on an operation that always fails retryably, against a
fresh breaker. -/
theorem C7_ok_witness :
    (withRetry (fun _ => AttemptResult.err (T := Unit) true) 3 1000 30000 2 0 5
      CircuitBreaker.default).1 = none ∧
    (withRetry (fun _ => AttemptResult.err (T := Unit) true) 3 1000 30000 2 0 5
      CircuitBreaker.default).2.1 = [1000, 2000, 4000] ∧
    (withRetry (fun _ => AttemptResult.err (T := Unit) true) 3 1000 30000 2 0 5
      CircuitBreaker.default).2.2.failures = 1 := by
  have h := C7_ok (fun _ => AttemptResult.err (T := Unit) true)
    3 1000 30000 2 0 5 CircuitBreaker.default (by decide)
  obtain ⟨⟨hshape, _⟩, hex⟩ := h
  obtain ⟨hres, hlen, _, hfail⟩ := hex (fun _ => rfl)
  refine ⟨hres, ?_, ?_⟩
  · rw [hshape, hlen]
    decide
  · rw [hfail]
    decide

/-! ## LRU cache with TTL (cache.ts, class LRUCache)

The backing `Map` is its insertion-ordered entry list (`Map.set` on an
existing key updates in place, keeping iteration position; on a fresh key
it appends — the same semantics as `recSet`). All operations take the
current time explicitly. -/

structure CacheEntry where
  value : String
  expiresAt : Nat
  lastAccessed : Nat
deriving DecidableEq

structure LRUCache where
  entries : List (String × CacheEntry)
  ttl : Nat
  maxSize : Nat
deriving DecidableEq

/-- `evictExpired`: delete every entry with `now > expiresAt`. -/
def evictExpired (now : Nat) (c : LRUCache) : LRUCache :=
  { c with entries := c.entries.filter (fun p => ¬ now > p.2.expiresAt) }

/-- The `lruKey` computed by `evictLRU`'s scan: starting from
`lruKey = null`, `lruTime = Infinity`, take each entry with strictly
smaller `lastAccessed` (so the first entry with the minimal time wins). -/
def lruKeyOf (entries : List (String × CacheEntry)) : Option String :=
  (entries.foldl (fun best p =>
    match best with
    | none => some (p.1, p.2.lastAccessed)
    | some (bk, bt) =>
        if p.2.lastAccessed < bt then some (p.1, p.2.lastAccessed)
        else some (bk, bt)) none).map Prod.fst

/-- `evictLRU`: delete the entry under `lruKey` — but only when `lruKey` is
truthy (`if (lruKey)`), so a `null` scan result *and an empty-string key*
both skip the deletion. -/
def evictLRU (c : LRUCache) : LRUCache :=
  match lruKeyOf c.entries with
  | some k =>
      if k = "" then c
      else { c with entries := c.entries.filter (fun p => ¬ p.1 = k) }
  | none => c

/-- `LRUCache.set`. -/
def cacheSet (now : Nat) (key value : String) (customTtl : Option Nat)
    (c : LRUCache) : LRUCache :=
  let ttl := customTtl.getD c.ttl
  let c1 :=
    if c.entries.length ≥ c.maxSize then
      let ce := evictExpired now c
      if ce.entries.length ≥ c.maxSize then evictLRU ce else ce
    else c
  { c1 with entries := recSet c1.entries key ⟨value, now + ttl, now⟩ }

/-- `LRUCache.get`: absent (or expired, deleting the entry) gives `null`;
a hit refreshes `lastAccessed` in place. -/
def cacheGet (now : Nat) (key : String) (c : LRUCache) :
    Option String × LRUCache :=
  match recGet? c.entries key with
  | none => (none, c)
  | some e =>
      if now > e.expiresAt then
        (none, { c with entries := c.entries.filter (fun p => ¬ p.1 = key) })
      else
        (some e.value,
          { c with entries := recSet c.entries key { e with lastAccessed := now } })

/-- C8, code bug. `evictLRU` guards the deletion with the JavaScript
truthiness test `if (lruKey)`, which is false for the empty-string key, so
an entry stored under `""` is never evicted. Failing input: a cache with
`maxSize = 2` holding keys `""` (least recently accessed) and `"k1"`, both
unexpired; `set("k2", ...)` finds no expired entry, the LRU scan selects
`""`, the truthiness check skips the deletion, and the insert leaves the
cache at 3 > maxSize entries with `""` still present — the claim (and the
code's own intent) requires the oldest entry to be removed. The lazy-expiry
half of the claim does hold: a `get` after the TTL elapsed returns absent
and removes the entry. -/
theorem C8_code_bug :
    (lruKeyOf (cacheSet 1 "k1" "b" none
        (cacheSet 0 "" "a" none ⟨[], 1000000, 2⟩)).entries = some "") ∧
    (cacheSet 2 "k2" "c" none (cacheSet 1 "k1" "b" none
        (cacheSet 0 "" "a" none ⟨[], 1000000, 2⟩))).entries.length = 3 ∧
    (recGet? (cacheSet 2 "k2" "c" none (cacheSet 1 "k1" "b" none
        (cacheSet 0 "" "a" none ⟨[], 1000000, 2⟩))).entries "").isSome = true ∧
    (cacheGet 2000000 "k1" (cacheSet 2 "k2" "c" none (cacheSet 1 "k1" "b" none
        (cacheSet 0 "" "a" none ⟨[], 1000000, 2⟩)))).1 = none ∧
    recGet? (cacheGet 2000000 "k1" (cacheSet 2 "k2" "c" none
        (cacheSet 1 "k1" "b" none
          (cacheSet 0 "" "a" none ⟨[], 1000000, 2⟩)))).2.entries "k1" = none := by
  decide

/-! ## SSE stream (OptimizedSSEStream) with default options
(highWaterMark 16384, chunkSize 8192). The transport (`ServerResponse`) is
modelled by the list of chunk strings written to it and its ended flag;
the backpressure drain wait changes no state. -/

def sseHighWaterMark : Nat := 16384

def sseChunkSize : Nat := 8192

structure SSEStream where
  buffer : List String
  bufferSize : Nat
  timerActive : Bool
  isClosed : Bool
  written : List String
  ended : Bool
deriving DecidableEq

/-- A freshly constructed stream: empty buffer, periodic flush timer
armed. -/
def sseInit : SSEStream := ⟨[], 0, true, false, [], false⟩

def utf8Len (s : String) : Nat := s.utf8ByteSize

/-- The inner chunk-collection loop of `flush`: shift items while the
buffer is non-empty and the accumulated byte size is below `chunkSize`. -/
def takeChunk : List String → Nat → List String × List String
  | [], _ => ([], [])
  | x :: xs, accSize =>
      if accSize < sseChunkSize then
        let r := takeChunk xs (accSize + utf8Len x)
        (x :: r.1, r.2)
      else ([], x :: xs)

theorem takeChunk_snd_length_le :
    ∀ (l : List String) (accSize : Nat), (takeChunk l accSize).2.length ≤ l.length := by
  intro l
  induction l with
  | nil => intro accSize; simp [takeChunk]
  | cons x xs ih =>
      intro accSize
      unfold takeChunk
      by_cases hc : accSize < sseChunkSize
      · rw [if_pos hc]
        dsimp only
        calc (takeChunk xs (accSize + utf8Len x)).2.length
            ≤ xs.length := ih _
          _ ≤ (x :: xs).length := by simp
      · rw [if_neg hc]

/-- The outer loop of `flush`: join and write chunk after chunk until the
buffer is drained; returns the chunk strings written. -/
def drainBuffer : List String → List String
  | [] => []
  | x :: xs =>
      String.join (takeChunk (x :: xs) 0).1 ::
        drainBuffer (takeChunk (x :: xs) 0).2
termination_by l => l.length
decreasing_by
  have h1 : (takeChunk (x :: xs) 0).2.length ≤ xs.length := by
    unfold takeChunk
    rw [if_pos (by decide)]
    exact takeChunk_snd_length_le xs (0 + utf8Len x)
  simp
  omega

/-- `OptimizedSSEStream.flush`: a no-op on an empty buffer *or once the
stream is closed*; otherwise writes the buffer out in chunks and resets
the byte count. -/
def sseFlush (s : SSEStream) : SSEStream :=
  if s.buffer = [] ∨ s.isClosed then s
  else
    { s with
        buffer := []
        bufferSize := 0
        written := s.written ++ drainBuffer s.buffer }

/-- `OptimizedSSEStream.write`: a silent no-op after close; otherwise
buffer the data and force a flush at the high-water mark. -/
def sseWrite (data : String) (s : SSEStream) : SSEStream :=
  if s.isClosed then s
  else
    let s1 := { s with
        buffer := s.buffer ++ [data]
        bufferSize := s.bufferSize + utf8Len data }
    if s1.bufferSize ≥ sseHighWaterMark then sseFlush s1 else s1

/-- `OptimizedSSEStream.close`: a no-op when already closed; otherwise set
`isClosed` (before flushing!), stop the timer, call `flush`, and end the
response. -/
def sseClose (s : SSEStream) : SSEStream :=
  if s.isClosed then s
  else
    let s1 := { s with isClosed := true, timerActive := false }
    { sseFlush s1 with ended := true }

/-- C9, code bug. `close` sets `isClosed := true` *before* calling `flush`,
and `flush` returns immediately when `isClosed` — so the "final flush" in
`close` is always a no-op and any buffered data is silently dropped (the
code's own comment says "Flush remaining data"). Failing input: a stream
holding one buffered write `"hello"` (below the high-water mark) that is
then closed — nothing is ever written to the transport, yet the response is
ended. The idempotency half of the claim does hold: a second `close`, and a
`write` after close, change nothing. -/
theorem C9_code_bug :
    (sseWrite "hello" sseInit).buffer = ["hello"] ∧
    (sseWrite "hello" sseInit).written = [] ∧
    (sseClose (sseWrite "hello" sseInit)).isClosed = true ∧
    (sseClose (sseWrite "hello" sseInit)).timerActive = false ∧
    (sseClose (sseWrite "hello" sseInit)).ended = true ∧
    (sseClose (sseWrite "hello" sseInit)).written = [] ∧
    (sseClose (sseWrite "hello" sseInit)).buffer = ["hello"] ∧
    sseClose (sseClose (sseWrite "hello" sseInit)) =
      sseClose (sseWrite "hello" sseInit) ∧
    sseWrite "more" (sseClose (sseWrite "hello" sseInit)) =
      sseClose (sseWrite "hello" sseInit) := by
  decide

/-! ## Cache and deduplication keys (cache.ts, http-client.ts)

`JSON.stringify` on the message objects (keys serialize in insertion
order: `role` then `content`) is embedded for the characters the witnesses
use; the escape map covers quote, backslash and the common control
characters. `String.slice(0, n)` counts UTF-16 units, which equals
characters for the ASCII inputs considered. -/

structure ChatMessage where
  role : String
  content : String
deriving DecidableEq

def escChar (c : Char) : List Char :=
  if c = '"' then ['\\', '"']
  else if c = '\\' then ['\\', '\\']
  else if c = '\n' then ['\\', 'n']
  else if c = '\r' then ['\\', 'r']
  else if c = '\t' then ['\\', 't']
  else [c]

def jsonEscape (s : String) : String :=
  String.mk (s.data.map escChar).flatten

def stringifyMessage (m : ChatMessage) : String :=
  "\x7b\"role\":\"" ++ jsonEscape m.role ++ "\",\"content\":\"" ++
    jsonEscape m.content ++ "\"\x7d"

def stringifyMessages (ms : List ChatMessage) : String :=
  "[" ++ String.intercalate "," (ms.map stringifyMessage) ++ "]"

/-- `getResponseCacheKey` (cache.ts): the key keeps only the first 200
characters of the serialized messages. -/
def getResponseCacheKey (model : String) (messages : List ChatMessage) : String :=
  "response:" ++ model ++ ":" ++ (stringifyMessages messages).take 200

/-- `getRequestKey` (http-client.ts): the deduplication key keeps only the
first 100 characters of the request body (`body ? body.slice(0, 100) : ''`
and `method || 'GET'`; absent values are the empty string). -/
def getRequestKey (url body method : String) : String :=
  url ++ ":" ++ (if method = "" then "GET" else method) ++ ":" ++ body.take 100

set_option maxRecDepth 100000 in
/-- C10: the cache and deduplication keys are not injective in the request
payload. Two distinct single-message lists to the same model whose JSON
serializations differ only after the first 200 characters receive the same
`getResponseCacheKey` — so a cached response stored for one is returned
for the other (shown against the cache model with the response pool's
1-hour TTL and 500-entry capacity); likewise two distinct bodies sharing
their first 100 characters receive the same in-flight deduplication key. -/
theorem C10_ok :
    ([⟨"user", String.mk (List.replicate 180 'a') ++ "X"⟩] ≠
      ([⟨"user", String.mk (List.replicate 180 'a') ++ "Y"⟩] : List ChatMessage)) ∧
    getResponseCacheKey "openai/gpt-4o"
        [⟨"user", String.mk (List.replicate 180 'a') ++ "X"⟩] =
      getResponseCacheKey "openai/gpt-4o"
        [⟨"user", String.mk (List.replicate 180 'a') ++ "Y"⟩] ∧
    (String.mk (List.replicate 100 'b') ++ "X" ≠
      String.mk (List.replicate 100 'b') ++ "Y") ∧
    getRequestKey "https://openrouter.ai/api/v1/chat/completions"
        (String.mk (List.replicate 100 'b') ++ "X") "POST" =
      getRequestKey "https://openrouter.ai/api/v1/chat/completions"
        (String.mk (List.replicate 100 'b') ++ "Y") "POST" ∧
    (cacheGet 1
        (getResponseCacheKey "openai/gpt-4o"
          [⟨"user", String.mk (List.replicate 180 'a') ++ "Y"⟩])
        (cacheSet 0
          (getResponseCacheKey "openai/gpt-4o"
            [⟨"user", String.mk (List.replicate 180 'a') ++ "X"⟩])
          "cached-response-of-msgs1" none ⟨[], 3600000, 500⟩)).1 =
      some "cached-response-of-msgs1" := by
  decide

end Council
